import Mathlib

/-!
# Verification of the hyfetch ASCII recoloring core

A shallow embedding of the ASCII-art recoloring pipeline of
`hyfetch/neofetch_util.py` and `hyfetch/flag_utils.py`, together with the
color model that the spec describes for the (external) `color_util` module.
Strings are modelled as `List Char`; Python `str.split`, `str.ljust`,
`re.sub` and `re.findall` for the fixed placeholder pattern are embedded as
structurally recursive functions.
-/

namespace Hyfetch

/-! ## The placeholder pattern

The regex from `neofetch_util.py` is the literal pattern `${cD}` for a
single digit `D` (`RE_NEOFETCH_COLOR = re.compile('\\$\x7bc[0-9]\x7d')`).
-/

/-- Does `d` complete a `${cD}` placeholder? (`[0-9]` in the regex). -/
def phDigit (d : Char) : Bool := d.isDigit

/-- `re.sub(RE_NEOFETCH_COLOR, '', s)`: remove every placeholder match,
scanning left to right, advancing one character on a failed match. -/
def stripColors : List Char → List Char
  | '$' :: '{' :: 'c' :: d :: '}' :: rest =>
    if phDigit d then stripColors rest
    else '$' :: stripColors ('{' :: 'c' :: d :: '}' :: rest)
  | c :: rest => c :: stripColors rest
  | [] => []

/-- `re.findall(RE_NEOFETCH_COLOR, s)`: every placeholder match in order. -/
def findAllColors : List Char → List (List Char)
  | '$' :: '{' :: 'c' :: d :: '}' :: rest =>
    if phDigit d then ['$', '{', 'c', d, '}'] :: findAllColors rest
    else findAllColors ('{' :: 'c' :: d :: '}' :: rest)
  | _ :: rest => findAllColors rest
  | [] => []

/-! ## Python `str.split('\n')` and `'\n'.join` -/

/-- Python `s.split('\n')`; in particular `''.split('\n') == ['']`. -/
def splitNl : List Char → List (List Char)
  | [] => [[]]
  | '\n' :: rest => [] :: splitNl rest
  | c :: rest => (c :: (splitNl rest).headD []) :: (splitNl rest).tail

/-- Python `'\n'.join(lines)`. -/
def joinNl : List (List Char) → List Char
  | [] => []
  | [l] => l
  | l :: ls => l ++ '\n' :: joinNl ls

/-- Python `line.ljust(w)`: pad on the right with spaces up to width `w`. -/
def ljust (l : List Char) (w : ℕ) : List Char := l ++ List.replicate (w - l.length) ' '

/-- Maximum of a list of naturals (Python `max` over a non-empty list). -/
def maxList (ns : List ℕ) : ℕ := ns.foldr max 0

/-! ## `ascii_size`, `normalize_ascii`, `fill_starting` -/

/-- Width component of `ascii_size`: strip all placeholders from the whole
string, split on newlines, take the maximum line length. -/
def asciiWidth (a : List Char) : ℕ := maxList ((splitNl (stripColors a)).map List.length)

/-- Height component of `ascii_size`: the number of lines. -/
def asciiHeight (a : List Char) : ℕ := (splitNl a).length

/-- `normalize_ascii`: left-justify every raw line to the stripped width. -/
def normalizeAscii (a : List Char) : List Char :=
  joinNl ((splitNl a).map (fun l => ljust l (asciiWidth a)))

/-- String-level `normalize_ascii`. -/
def normalizeAsciiStr (s : String) : String := ⟨normalizeAscii s.data⟩

/-- The last placeholder match of a line (`matches[-1]`), if any. -/
def lastPh (l : List Char) : Option (List Char) := (findAllColors l).getLast?

/-- The loop of `fill_starting`: prepend the remembered placeholder `last`
to each line; a line with placeholders updates `last` to its final match. -/
def fillAux (last : List Char) : List (List Char) → List (List Char)
  | [] => []
  | l :: ls => (last ++ l) :: fillAux ((lastPh l).getD last) ls

/-- `fill_starting`: fill the missing starting placeholders. -/
def fillStarting (a : List Char) : List Char := joinNl (fillAux [] (splitNl a))

/-- String-level `fill_starting`. -/
def fillStartingStr (s : String) : String := ⟨fillStarting s.data⟩

/-- The placeholder value remembered by `fill_starting` after scanning the
given lines, starting from `last` (a prefix fold, used to specify which
placeholder a later line inherits). -/
def lastSeen (last : List Char) (ls : List (List Char)) : List Char :=
  ls.foldl (fun acc l => (lastPh l).getD acc) last

/-! ## Color model

The repository imports `RGB`, `color` and `printc` from `hyfetch.color_util`,
whose source is not part of the verified tree; the definitions below are
modelled from the spec (sections 3 and 4.1).
-/

/-- An RGB color: three 8-bit channels (`hyfetch.color_util.RGB`). -/
structure RGB where
  r : ℕ
  g : ℕ
  b : ℕ
deriving DecidableEq, Repr

/-- Modelled from the spec: `color("&l\x1b[1m")`, the bold-on escape emitted
at the start of each row ("emit a bold-on sequence"). -/
def boldOn : String := "\x1b[1m"

/-- Modelled from the spec: `color('&~&*')`, the full style reset ("emit a
full style-reset"). -/
def styleReset : String := "\x1b[0m"

/-- Modelled from the spec: `color("&l\x1b[22m")`, the unbold escape emitted
after the final row ("emit unbold + full style-reset"). -/
def unboldSeq : String := "\x1b[22m"

/-- Decimal digit character. -/
def digitChar (n : ℕ) : Char := Char.ofNat (48 + n % 10)

/-- Decimal digits of `n` (auxiliary, fuel-driven so it reduces in the
kernel). -/
def natDigits : ℕ → ℕ → List Char
  | 0, _ => []
  | fuel + 1, n => if n < 10 then [digitChar n] else natDigits fuel (n / 10) ++ [digitChar (n % 10)]

/-- Decimal rendering of a channel value. -/
def natStr (n : ℕ) : List Char := natDigits (n + 1) n

/-- Modelled from the spec: `RGB.to_ansi` in 24-bit truecolor mode — the
escape sequence selecting this exact color as foreground or background
(`\x1b[38;2;R;G;Bm` / `\x1b[48;2;R;G;Bm`). -/
def toAnsi (fg : Bool) (c : RGB) : List Char :=
  '\x1b' :: '[' :: (if fg then '3' else '4') :: '8' :: ';' :: '2' :: ';' ::
    (natStr c.r ++ ';' :: natStr c.g ++ ';' :: natStr c.b ++ ['m'])

/-! ### HSL lightness operations (modelled from the spec, section 4.1) -/

/-- `colorsys.rgb_to_hls` on channels already scaled to `[0,1]`: returns
`(hue, lightness, saturation)`. -/
def rgbToHls (v : ℚ × ℚ × ℚ) : ℚ × ℚ × ℚ :=
  let r := v.1; let g := v.2.1; let b := v.2.2
  let maxc := max r (max g b)
  let minc := min r (min g b)
  let l := (minc + maxc) / 2
  if minc = maxc then (0, l, 0)
  else
    let delta := maxc - minc
    let s := if l ≤ 1 / 2 then delta / (maxc + minc) else delta / (2 - maxc - minc)
    let rc := (maxc - r) / delta
    let gc := (maxc - g) / delta
    let bc := (maxc - b) / delta
    let h0 := if r = maxc then bc - gc else if g = maxc then 2 + rc - bc else 4 + gc - rc
    (Int.fract (h0 / 6), l, s)

/-- The `_v` helper of `colorsys.hls_to_rgb`. -/
def hlsV (m1 m2 hue : ℚ) : ℚ :=
  let f := Int.fract hue
  if f < 1 / 6 then m1 + (m2 - m1) * f * 6
  else if f < 1 / 2 then m2
  else if f < 2 / 3 then m1 + (m2 - m1) * (2 / 3 - f) * 6
  else m1

/-- `colorsys.hls_to_rgb` on `[0,1]`-scaled values. -/
def hlsToRgb (h l s : ℚ) : ℚ × ℚ × ℚ :=
  if s = 0 then (l, l, l)
  else
    let m2 := if l ≤ 1 / 2 then l * (1 + s) else l + s - l * s
    let m1 := 2 * l - m2
    (hlsV m1 m2 (h + 1 / 3), hlsV m1 m2 h, hlsV m1 m2 (h - 1 / 3))

/-- HSL lightness of a `[0,1]`-scaled RGB triple. -/
def lightnessOf (v : ℚ × ℚ × ℚ) : ℚ :=
  (min v.1 (min v.2.1 v.2.2) + max v.1 (max v.2.1 v.2.2)) / 2

/-- Channels all within `[0,1]`. -/
def validQ (v : ℚ × ℚ × ℚ) : Prop :=
  0 ≤ v.1 ∧ v.1 ≤ 1 ∧ 0 ≤ v.2.1 ∧ v.2.1 ≤ 1 ∧ 0 ≤ v.2.2 ∧ v.2.2 ≤ 1

/-- Modelled from the spec: the core of `RGB.set_light` on `[0,1]`-scaled
channels — convert to HSL, clamp the computed lightness to the bound given
by `at_least`/`at_most` (else set it exactly to `light`), convert back. -/
def setLightQ (v : ℚ × ℚ × ℚ) (light : ℚ) (at_least at_most : Option Bool) : ℚ × ℚ × ℚ :=
  let hls := rgbToHls v
  let l := hls.2.1
  let l1 := if at_least = some true then max l light else l
  let l2 := if at_most = some true then min l1 light else l1
  let lNew := if at_least = some true ∨ at_most = some true then l2 else light
  hlsToRgb hls.1 lNew hls.2.2

/-- Modelled from the spec: the core of `RGB.lighten` on `[0,1]`-scaled
channels — multiply the HSL lightness by `f`, clamped to `[0,1]`. -/
def lightenQ (v : ℚ × ℚ × ℚ) (f : ℚ) : ℚ × ℚ × ℚ :=
  let hls := rgbToHls v
  hlsToRgb hls.1 (min 1 (max 0 (hls.2.1 * f))) hls.2.2

/-- Scale 8-bit channels down to `[0,1]`. -/
def toQ (c : RGB) : ℚ × ℚ × ℚ := ((c.r : ℚ) / 255, (c.g : ℚ) / 255, (c.b : ℚ) / 255)

/-- Quantize a `[0,1]` value back to an 8-bit channel. -/
def quantChan (q : ℚ) : ℕ := (round (q * 255)).toNat

/-- Modelled from the spec: `RGB.set_light`. -/
def RGB.set_light (c : RGB) (light : ℚ) (at_least at_most : Option Bool) : RGB :=
  let v := setLightQ (toQ c) light at_least at_most
  ⟨quantChan v.1, quantChan v.2.1, quantChan v.2.2⟩

/-- Modelled from the spec: `RGB.lighten`. -/
def RGB.lighten (c : RGB) (f : ℚ) : RGB :=
  let v := lightenQ (toQ c) f
  ⟨quantChan v.1, quantChan v.2.1, quantChan v.2.2⟩

/-! ## Flag image provider (`flag_utils.get_flag`)

`PIL.Image` decoding is external; rotation and nearest-neighbor resizing
are modelled from the spec (section 4.2): "rotation must be a multiple of
90; after rotation the image is resized with nearest-neighbor sampling to
exactly width × height, expanding the canvas".
-/

/-- A pixel grid: `pix x y` is the pixel in column `x`, row `y`
(`Image.getpixel((x, y))`). -/
structure Img where
  w : ℕ
  h : ℕ
  pix : ℕ → ℕ → RGB

/-- One counterclockwise quarter turn, expanding the bounding box. -/
def quarterTurn (img : Img) : Img :=
  ⟨img.h, img.w, fun x y => img.pix (img.w - 1 - y) x⟩

/-- Modelled from the spec: `Image.rotate(rot, expand=True)` for rotations
that are multiples of 90 degrees (counterclockwise); other angles are out
of the spec's contract and leave the image unchanged here. -/
def rotateExpand (rot : ℤ) (img : Img) : Img :=
  if rot % 90 = 0 then quarterTurn^[((rot / 90) % 4).toNat] img else img

/-- Modelled from the spec: `Image.resize((w, h), resample=NEAREST)` —
nearest-neighbor resampling to exactly `w × h`. -/
def resizeNearest (w h : ℕ) (img : Img) : Img :=
  ⟨w, h, fun x y => img.pix (x * img.w / w) (y * img.h / h)⟩

/-- Python `str.lower()` on one ASCII character. -/
def lowerChar (c : Char) : Char :=
  if 'A' ≤ c ∧ c ≤ 'Z' then Char.ofNat (c.toNat + 32) else c

/-- Python `str.lower()` (ASCII range). -/
def lowerStr (s : String) : String := ⟨s.data.map lowerChar⟩

/-- Python `f.split('.')[0]`: the file name up to the first dot. -/
def stemOf (f : String) : String := ⟨f.data.takeWhile (fun c => c ≠ '.')⟩

/-- `flag_utils.get_flag`: look up `flag.lower()` among the installed flag
file names with extensions removed; on a hit, open (external decode
`srcImgs`), rotate and resize the image; otherwise fail. -/
def getFlag (files : List String) (srcImgs : String → Img) (flag : String)
    (x_len y_len : ℕ) (rot : ℤ) : Except String Img :=
  let files_no_ext := files.map stemOf
  match files_no_ext.indexOf? (lowerStr flag) with
  | none => .error (lowerStr flag ++ " flag does not exist")
  | some i => .ok (resizeNearest x_len y_len (rotateExpand rot (srcImgs (files.getD i ""))))

/-! ## The recolor engine (`neofetch_util.recolor_ascii`) -/

/-- The error message of the unrecognized-lightness-mode branch. -/
def notImplMsg : String := "lightness_mode must be either set_dl, set_raw, scale, or None"

/-- The recognized lightness modes (`set_dl`, `set_raw`, `scale`, `None`). -/
def recognizedModes : List (Option String) := [some "set_dl", some "set_raw", some "scale", none]

/-- The per-pixel lightness dispatch of `recolor_ascii` (its
`if lightness_mode == ... elif ... else raise NotImplementedError` chain). -/
def transformPixel (mode : Option String) (light : ℚ) (term : String) (c : RGB) :
    Except String RGB :=
  match mode with
  | some "set_dl" =>
    if lowerStr term = "dark" then .ok (c.set_light light (some true) none)
    else .ok (c.set_light light none (some true))
  | some "set_raw" => .ok (c.set_light light none none)
  | some "scale" => .ok (c.lighten light)
  | none => .ok c
  | some _ => .error notImplMsg

/-- The same dispatch restricted to recognized modes, as a pure function. -/
def transformPure (mode : Option String) (light : ℚ) (term : String) (c : RGB) : RGB :=
  match mode with
  | some "set_dl" =>
    if lowerStr term = "dark" then c.set_light light (some true) none
    else c.set_light light none (some true)
  | some "set_raw" => c.set_light light none none
  | some "scale" => c.lighten light
  | _ => c

/-- The character loop of `recolor_ascii`, with state `(x, y, cur)` for the
column, row and `current_color` tracker. Emits, for each newline, a full
reset, the newline and a bold-on; for each glyph, a color switch when the
color string differs from `cur`, then the glyph. -/
def recolorLoop (img : ℕ → ℕ → RGB) (mode : Option String) (light : ℚ) (fg : Bool)
    (term : String) (x_len : ℕ) : List Char → ℕ → ℕ → List Char → Except String (List Char)
  | [], _, _, _ => .ok []
  | c :: rest, x, y, cur =>
    if c = '\n' then do
      let t ← recolorLoop img mode light fg term x_len rest x y []
      .ok (styleReset.data ++ '\n' :: (boldOn.data ++ t))
    else
      let x' := if x = x_len then 0 else x
      let y' := if x = x_len then y + 1 else y
      do
        let rgb ← transformPixel mode light term (img x' y')
        let cstr := toAnsi fg rgb
        let t ← recolorLoop img mode light fg term x_len rest (x' + 1) y' cstr
        .ok ((if cstr ≠ cur then cstr else []) ++ c :: t)

/-- `recolor_ascii`: fill starting placeholders, strip the placeholders,
measure, normalize, obtain the flag image, then walk the grid emitting
escape-minimal colored output framed by bold-on … unbold + reset. -/
def recolorAscii (asc : String) (files : List String) (srcImgs : String → Img)
    (flag : String) (light : ℚ := 1 / 2) (mode : Option String := some "set_dl")
    (fg : Bool := true) (rot : ℤ := 0) (term : String := "dark") : Except String String :=
  let a1 := fillStarting asc.data
  let a2 := stripColors a1
  let lines := splitNl a2
  let x_len := maxList (lines.map List.length)
  let y_len := lines.length
  let a3 := normalizeAscii a2
  do
    let img ← getFlag files srcImgs flag x_len y_len rot
    let body ← recolorLoop img.pix mode light fg term x_len a3 0 0 []
    .ok ⟨boldOn.data ++ body ++ unboldSeq.data ++ styleReset.data⟩

/-! ## Specification-side rendering combinators

These re-express the character loop rows-first; the decomposition lemmas
below prove they agree with `recolorLoop`.
-/

/-- The inputs of one render pass (flag pixels and lightness policy). -/
structure RenderCtx where
  img : ℕ → ℕ → RGB
  mode : Option String
  light : ℚ
  fg : Bool
  term : String

/-- The ANSI color string emitted for the cell at column `x`, row `y`. -/
def cellStr (ctx : RenderCtx) (x y : ℕ) : List Char :=
  toAnsi ctx.fg (transformPure ctx.mode ctx.light ctx.term (ctx.img x y))

/-- The character loop of `recolor_ascii` as a pure function (defined for
the recognized lightness modes). -/
def loopP (ctx : RenderCtx) (x_len : ℕ) : List Char → ℕ → ℕ → List Char → List Char
  | [], _, _, _ => []
  | c :: rest, x, y, cur =>
    if c = '\n' then styleReset.data ++ '\n' :: (boldOn.data ++ loopP ctx x_len rest x y [])
    else
      let x' := if x = x_len then 0 else x
      let y' := if x = x_len then y + 1 else y
      let cs := cellStr ctx x' y'
      (if cs ≠ cur then cs else []) ++ c :: loopP ctx x_len rest (x' + 1) y' cs

/-- Emission for the glyphs of one row, starting at column `x` with
`current_color = cur`: a color switch exactly when the cell color string
differs from the previous one. -/
def emitFrom (ctx : RenderCtx) (y : ℕ) : List Char → ℕ → List Char → List Char
  | [], _, _ => []
  | ch :: rest, x, cur =>
    (if cellStr ctx x y ≠ cur then cellStr ctx x y else []) ++
      ch :: emitFrom ctx y rest (x + 1) (cellStr ctx x y)

/-- The per-cell color strings of a row, starting at column `x`. -/
def cellStrsFrom (ctx : RenderCtx) (y : ℕ) : List Char → ℕ → List (List Char)
  | [], _ => []
  | _ :: rest, x => cellStr ctx x y :: cellStrsFrom ctx y rest (x + 1)

/-- The `current_color` tracker after emitting `cells` from column `x`. -/
def finalCur (ctx : RenderCtx) (y : ℕ) : List Char → List Char → ℕ → List Char
  | cur, [], _ => cur
  | _, _ :: cells, x => finalCur ctx y (cellStr ctx x y) cells (x + 1)

/-- One fully rendered row: bold-on reset of the tracker, then the glyphs. -/
def renderRow (ctx : RenderCtx) (y : ℕ) (r : List Char) : List Char :=
  emitFrom ctx y r 0 []

/-- All rendered output rows: every row starts with bold-on; every row but
the last ends with a full reset, the last with unbold plus full reset. -/
def renderRowList (ctx : RenderCtx) : List (List Char) → ℕ → List (List Char)
  | [], _ => []
  | [r], y => [boldOn.data ++ renderRow ctx y r ++ unboldSeq.data ++ styleReset.data]
  | r :: rs, y => (boldOn.data ++ renderRow ctx y r ++ styleReset.data) :: renderRowList ctx rs (y + 1)

/-- Number of occurrences of the pattern `p` (at any position). -/
def countPat (p : List Char) : List Char → ℕ
  | [] => 0
  | c :: rest => (if p.isPrefixOf (c :: rest) then 1 else 0) + countPat p rest

/-- Number of positions whose value differs from the previous one (the
previous value of the first position being `cur`). -/
def switchCount {α : Type} [DecidableEq α] : α → List α → ℕ
  | _, [] => 0
  | cur, c :: rest => (if c ≠ cur then 1 else 0) + switchCount c rest

/-- Number of maximal runs of equal consecutive values. -/
def runsCount {α : Type} [DecidableEq α] : List α → ℕ
  | [] => 0
  | [_] => 1
  | c :: c' :: rest => (if c ≠ c' then 1 else 0) + runsCount (c' :: rest)

/-- The fixed prefix of every foreground (resp. background) color-switch
escape sequence. -/
def switchPat (fg : Bool) : List Char :=
  ['\x1b', '[', if fg then '3' else '4', '8', ';', '2', ';']

/-- The per-cell transformed flag colors of row `y` at width `w` (what the
engine samples and transforms before rendering). -/
def rowTransformed (ctx : RenderCtx) (w y : ℕ) : List RGB :=
  (List.range w).map (fun x => transformPure ctx.mode ctx.light ctx.term (ctx.img x y))

/-! ## Concrete images used in the scenario theorems -/

/-- The 2×2 flag image of the end-to-end scenario: top row red, bottom row
blue. -/
def flagTopRedBotBlue : Img :=
  ⟨2, 2, fun _ y => if y = 0 then ⟨255, 0, 0⟩ else ⟨0, 0, 255⟩⟩

/-- A 3×1 flag row whose colors read red, blue, red. -/
def flagRBR : Img :=
  ⟨3, 1, fun x _ => if x = 1 then ⟨0, 0, 255⟩ else ⟨255, 0, 0⟩⟩

/-- An arbitrary 5×7 source image. -/
def srcSample : Img := ⟨5, 7, fun _ _ => ⟨1, 2, 3⟩⟩

/-! ## Lemmas about line splitting and joining -/

lemma splitNl_nil : splitNl [] = [[]] := rfl

lemma splitNl_cons_nl (rest : List Char) : splitNl ('\n' :: rest) = [] :: splitNl rest := rfl

lemma splitNl_cons (c : Char) (rest : List Char) (h : c ≠ '\n') :
    splitNl (c :: rest) = (c :: (splitNl rest).headD []) :: (splitNl rest).tail := by
  rw [splitNl.eq_def]
  rcases rest with _ | ⟨c', rest⟩ <;> simp_all

lemma splitNl_ne_nil (a : List Char) : splitNl a ≠ [] := by
  induction a with
  | nil => simp [splitNl]
  | cons c rest ih =>
    by_cases h : c = '\n'
    · subst h; simp [splitNl_cons_nl]
    · simp [splitNl_cons c rest h]

lemma splitNl_no_nl (a : List Char) (h : '\n' ∉ a) : splitNl a = [a] := by
  induction a with
  | nil => rfl
  | cons c rest ih =>
    simp only [List.mem_cons, not_or] at h
    rw [splitNl_cons c rest (fun hc => h.1 hc.symm), ih h.2]
    rfl

lemma splitNl_append_nl (l r : List Char) (h : '\n' ∉ l) :
    splitNl (l ++ '\n' :: r) = l :: splitNl r := by
  induction l with
  | nil => rfl
  | cons c rest ih =>
    simp only [List.mem_cons, not_or] at h
    rw [List.cons_append, splitNl_cons c _ (fun hc => h.1 hc.symm), ih h.2]
    simp

lemma splitNl_append_left (l r : List Char) (h : '\n' ∉ l) :
    splitNl (l ++ r) = (l ++ (splitNl r).headD []) :: (splitNl r).tail := by
  induction l with
  | nil =>
    rcases hr : splitNl r with _ | ⟨x, xs⟩
    · exact absurd hr (splitNl_ne_nil r)
    · simp [hr]
  | cons c rest ih =>
    simp only [List.mem_cons, not_or] at h
    rw [List.cons_append, splitNl_cons c _ (fun hc => h.1 hc.symm), ih h.2]
    simp

lemma mem_splitNl_no_nl (a : List Char) : ∀ l ∈ splitNl a, '\n' ∉ l := by
  induction a with
  | nil => intro l hl; simp [splitNl] at hl; simp [hl]
  | cons c rest ih =>
    intro l hl
    by_cases h : c = '\n'
    · subst h
      rw [splitNl_cons_nl] at hl
      rcases List.mem_cons.mp hl with hl | hl
      · simp [hl]
      · exact ih l hl
    · rw [splitNl_cons c rest h] at hl
      rcases hs : splitNl rest with _ | ⟨x, xs⟩
      · exact absurd hs (splitNl_ne_nil rest)
      · rw [hs] at hl
        rcases List.mem_cons.mp hl with hl | hl
        · subst hl
          have hx := ih x (by rw [hs]; exact List.mem_cons_self x xs)
          simp only [List.headD_cons]
          simp [hx]
          exact fun hc => h hc.symm
        · exact ih l (by rw [hs]; exact List.mem_cons_of_mem x hl)

lemma joinNl_cons (l : List Char) (ls : List (List Char)) (h : ls ≠ []) :
    joinNl (l :: ls) = l ++ '\n' :: joinNl ls := by
  rcases ls with _ | ⟨x, xs⟩
  · exact absurd rfl h
  · rfl

lemma splitNl_joinNl : ∀ (ls : List (List Char)), ls ≠ [] →
    (∀ l ∈ ls, '\n' ∉ l) → splitNl (joinNl ls) = ls
  | [], hne, _ => absurd rfl hne
  | [l], _, h => splitNl_no_nl l (h l (List.mem_cons_self l []))
  | l :: x :: xs, _, h => by
    rw [joinNl_cons l (x :: xs) (by simp),
      splitNl_append_nl l _ (h l (List.mem_cons_self l _)),
      splitNl_joinNl (x :: xs) (by simp) (fun m hm => h m (List.mem_cons_of_mem l hm))]

/-! ## Normalization width lemmas (for the claims about `normalize_ascii`) -/

lemma ljust_length (l : List Char) (w : ℕ) : (ljust l w).length = max l.length w := by
  simp [ljust]
  omega

lemma le_maxList (ns : List ℕ) (n : ℕ) (h : n ∈ ns) : n ≤ maxList ns := by
  induction ns with
  | nil => cases h
  | cons m ms ih =>
    rcases List.mem_cons.mp h with h | h
    · simp [maxList, List.foldr]; left; omega
    · have := ih h
      simp only [maxList, List.foldr] at *
      omega

lemma no_nl_ljust (l : List Char) (w : ℕ) (h : '\n' ∉ l) : '\n' ∉ ljust l w := by
  simp only [ljust, List.mem_append, not_or]
  refine ⟨h, fun hm => ?_⟩
  have := List.eq_of_mem_replicate hm
  simp at this

/-- Every line of `normalize_ascii a` has length exactly `asciiWidth a`,
provided `a` is placeholder-free (stripping is the identity on it) — in
`recolor_ascii` the normalizer is applied to the already-stripped template,
which satisfies this. -/
lemma normalizeAscii_line_length (a : List Char) (hfix : stripColors a = a) :
    ∀ line ∈ splitNl (normalizeAscii a), line.length = asciiWidth a := by
  intro line hline
  have hw : asciiWidth a = maxList ((splitNl a).map List.length) := by
    simp [asciiWidth, hfix]
  have hsj : splitNl (normalizeAscii a) = (splitNl a).map (fun l => ljust l (asciiWidth a)) := by
    apply splitNl_joinNl
    · simp [splitNl_ne_nil a]
    · intro l hl
      rcases List.mem_map.mp hl with ⟨m, hm, rfl⟩
      exact no_nl_ljust m _ (mem_splitNl_no_nl a m hm)
  rw [hsj] at hline
  rcases List.mem_map.mp hline with ⟨m, hm, rfl⟩
  have hle : m.length ≤ asciiWidth a := by
    rw [hw]
    exact le_maxList _ _ (List.mem_map.mpr ⟨m, hm, rfl⟩)
  rw [ljust_length]
  omega

/-! ## Lemmas about `fill_starting` -/

lemma lastSeen_nil (last : List Char) : lastSeen last [] = last := rfl

lemma lastSeen_cons (last : List Char) (l : List Char) (ls : List (List Char)) :
    lastSeen last (l :: ls) = lastSeen ((lastPh l).getD last) ls := rfl

lemma lastSeen_append (last : List Char) (A B : List (List Char)) :
    lastSeen last (A ++ B) = lastSeen (lastSeen last A) B := by
  simp [lastSeen, List.foldl_append]

lemma lastSeen_no_ph (last : List Char) (B : List (List Char))
    (h : ∀ l ∈ B, findAllColors l = []) : lastSeen last B = last := by
  induction B generalizing last with
  | nil => rfl
  | cons l ls ih =>
    rw [lastSeen_cons]
    have hl : findAllColors l = [] := h l (List.mem_cons_self l ls)
    rw [show lastPh l = none by simp [lastPh, hl]]
    exact ih last (fun m hm => h m (List.mem_cons_of_mem l hm))

/-- Index formula for the `fill_starting` loop: line `i` of the output is
line `i` of the input prefixed by the placeholder remembered after scanning
the first `i` lines. -/
lemma fillAux_getD (ls : List (List Char)) :
    ∀ (last : List Char) (i : ℕ), i < ls.length →
      (fillAux last ls).getD i [] = lastSeen last (ls.take i) ++ ls.getD i [] := by
  induction ls with
  | nil => intro last i h; simp at h
  | cons l ls ih =>
    intro last i h
    rcases i with _ | j
    · simp [fillAux, lastSeen_nil]
    · rw [show fillAux last (l :: ls) = (last ++ l) :: fillAux ((lastPh l).getD last) ls from rfl]
      simp only [List.getD_cons_succ, List.take_succ_cons, lastSeen_cons]
      exact ih _ j (by simpa using h)

/-- If line `j` is the nearest line before `i` carrying a placeholder (its
last match being `m`), then after scanning the first `i` lines the
remembered placeholder is `m`. -/
lemma lastSeen_take_of_nearest (ls : List (List Char)) (i j : ℕ) (hji : j < i)
    (hi : i ≤ ls.length) (m : List Char) (hm : lastPh (ls.getD j []) = some m)
    (hmid : ∀ k, j < k → k < i → findAllColors (ls.getD k []) = []) :
    lastSeen [] (ls.take i) = m := by
  have hj : j < ls.length := lt_of_lt_of_le hji hi
  have h1 : ls.take i = ls.take (j + 1) ++ (ls.drop (j + 1)).take (i - (j + 1)) := by
    rw [← List.take_add]
    congr 1
    omega
  have h2 : ls.take (j + 1) = ls.take j ++ [ls.getD j []] := by
    rw [List.take_succ]
    congr 1
    rw [List.getD_eq_getElem?_getD, List.getElem?_eq_getElem hj]
    rfl
  rw [h1, lastSeen_append, h2, lastSeen_append]
  have h3 : lastSeen (lastSeen [] (ls.take j)) [ls.getD j []] = m := by
    rw [lastSeen_cons, lastSeen_nil, hm]
    rfl
  rw [h3]
  apply lastSeen_no_ph
  intro l hl
  rcases List.mem_iff_getElem.mp hl with ⟨t, ht, rfl⟩
  have htlen : t < i - (j + 1) := lt_of_lt_of_le ht (by simpa using List.length_take_le _ _)
  have hlt : j + 1 + t < ls.length := by
    have := List.length_drop (j + 1) ls
    have h4 : t < (ls.drop (j + 1)).length := lt_of_lt_of_le ht (by simp [List.length_take])
    omega
  have h5 : ((ls.drop (j + 1)).take (i - (j + 1)))[t] = ls[j + 1 + t] := by
    rw [List.getElem_take, List.getElem_drop]
  rw [h5]
  have h6 : ls.getD (j + 1 + t) [] = ls[j + 1 + t] := List.getD_eq_getElem ls [] hlt
  rw [← h6]
  exact hmid (j + 1 + t) (by omega) (by omega)

/-! ## Decomposing the character loop into rows -/

lemma except_bind_ok {α β : Type} (a : α) (f : α → Except String β) :
    (Except.ok a : Except String α) >>= f = f a := rfl

lemma transformPixel_eq_pure (mode : Option String) (light : ℚ) (term : String) (c : RGB)
    (h : mode ∈ recognizedModes) :
    transformPixel mode light term c = .ok (transformPure mode light term c) := by
  have h4 : mode = some "set_dl" ∨ mode = some "set_raw" ∨ mode = some "scale" ∨ mode = none := by
    simpa [recognizedModes] using h
  rcases h4 with rfl | rfl | rfl | rfl
  · by_cases hd : lowerStr term = "dark" <;> simp [transformPixel, transformPure, hd]
  · rfl
  · rfl
  · rfl

lemma recolorLoop_ok (img : ℕ → ℕ → RGB) (mode : Option String) (light : ℚ) (fg : Bool)
    (term : String) (x_len : ℕ) (h : mode ∈ recognizedModes) :
    ∀ (s : List Char) (x y : ℕ) (cur : List Char),
      recolorLoop img mode light fg term x_len s x y cur =
        .ok (loopP ⟨img, mode, light, fg, term⟩ x_len s x y cur) := by
  intro s
  induction s with
  | nil => intro x y cur; rfl
  | cons c rest ih =>
    intro x y cur
    by_cases hc : c = '\n'
    · subst hc
      simp only [recolorLoop, loopP, if_pos rfl]
      rw [ih]
      rfl
    · simp only [recolorLoop, loopP, if_neg hc]
      rw [transformPixel_eq_pure _ _ _ _ h, except_bind_ok]
      rw [ih]
      rfl

/-- Starting a glyph at column `x_len` is the same as starting it at column
`0` on the next row (the `x == x_len` reset branch). -/
lemma loopP_shift (ctx : RenderCtx) (x_len : ℕ) (h0 : 0 < x_len) (c : Char) (hc : c ≠ '\n')
    (rest : List Char) (y : ℕ) (cur : List Char) :
    loopP ctx x_len (c :: rest) x_len y cur = loopP ctx x_len (c :: rest) 0 (y + 1) cur := by
  simp [loopP, hc, Nat.ne_of_lt h0]

/-- Processing glyphs that stay strictly inside the current row. -/
lemma loopP_cells (ctx : RenderCtx) (x_len : ℕ) :
    ∀ (cells rest : List Char) (x y : ℕ) (cur : List Char),
      (∀ c ∈ cells, c ≠ '\n') → x + cells.length ≤ x_len →
      loopP ctx x_len (cells ++ rest) x y cur =
        emitFrom ctx y cells x cur ++
          loopP ctx x_len rest (x + cells.length) y (finalCur ctx y cur cells x) := by
  intro cells
  induction cells with
  | nil => intro rest x y cur _ _; simp [emitFrom, finalCur]
  | cons ch cells ih =>
    intro rest x y cur hnl hlen
    have hx : ¬ x = x_len := by
      simp only [List.length_cons] at hlen
      omega
    simp only [List.cons_append, loopP, if_neg (hnl ch (List.mem_cons_self ch cells)), if_neg hx,
      List.append_eq]
    rw [ih rest (x + 1) y (cellStr ctx x y)
      (fun c hc => hnl c (List.mem_cons_of_mem ch hc))
      (by simp only [List.length_cons] at hlen; omega)]
    have hfc : finalCur ctx y cur (ch :: cells) x = finalCur ctx y (cellStr ctx x y) cells (x + 1) :=
      rfl
    have harith : x + 1 + cells.length = x + (cells.length + 1) := by omega
    rw [hfc, harith]
    simp [emitFrom, List.append_assoc]

lemma loopP_nl (ctx : RenderCtx) (x_len : ℕ) (rest : List Char) (x y : ℕ) (cur : List Char) :
    loopP ctx x_len ('\n' :: rest) x y cur =
      styleReset.data ++ '\n' :: (boldOn.data ++ loopP ctx x_len rest x y []) := rfl

lemma renderRow_nil (ctx : RenderCtx) (y : ℕ) : renderRow ctx y [] = [] := rfl

lemma renderRowList_ne_nil (ctx : RenderCtx) (rows : List (List Char)) (y : ℕ)
    (h : rows ≠ []) : renderRowList ctx rows y ≠ [] := by
  rcases rows with _ | ⟨r, rs⟩
  · exact absurd rfl h
  · rcases rs with _ | ⟨r2, rs⟩ <;> simp [renderRowList]

lemma renderRowList_congr_y (ctx : RenderCtx) :
    ∀ (rows : List (List Char)) (y1 y2 : ℕ), (∀ r ∈ rows, r = []) →
      renderRowList ctx rows y1 = renderRowList ctx rows y2
  | [], _, _, _ => rfl
  | [r], y1, y2, h => by
    have hr : r = [] := h r (List.mem_cons_self r [])
    subst hr
    rfl
  | r :: r2 :: rs, y1, y2, h => by
    have hr : r = [] := h r (List.mem_cons_self r _)
    subst hr
    have ih := renderRowList_congr_y ctx (r2 :: rs) (y1 + 1) (y2 + 1)
      (fun m hm => h m (List.mem_cons_of_mem _ hm))
    simp only [renderRowList, ih, renderRow_nil]

/-- Rendering the remaining rows, starting just after a newline (tracker
cleared, column counter at `x_len`, the row counter one behind the rows to
come): the bold/unbold/reset frame together with the rest of the loop output
is exactly the joined rendered rows. -/
lemma loopP_rows_tail (ctx : RenderCtx) (x_len : ℕ) :
    ∀ (rows : List (List Char)) (y : ℕ), rows ≠ [] →
      (∀ r ∈ rows, r.length = x_len ∧ ∀ c ∈ r, c ≠ '\n') →
      boldOn.data ++ loopP ctx x_len (joinNl rows) x_len y [] ++ unboldSeq.data ++ styleReset.data
        = joinNl (renderRowList ctx rows (y + 1))
  | [], _, hne, _ => absurd rfl hne
  | [r], y, _, h => by
    have hlen : r.length = x_len := (h r (List.mem_cons_self r [])).1
    have hnl : ∀ c ∈ r, c ≠ '\n' := (h r (List.mem_cons_self r [])).2
    rcases r with _ | ⟨c, r'⟩
    · have hx0 : x_len = 0 := by simpa using hlen.symm
      subst hx0
      rfl
    · have hx : 0 < x_len := by rw [← hlen]; simp
      show boldOn.data ++ loopP ctx x_len (c :: r') x_len y [] ++ _ ++ _ = _
      rw [loopP_shift ctx x_len hx c (hnl c (List.mem_cons_self c r')) r' y []]
      have hc := loopP_cells ctx x_len (c :: r') [] 0 (y + 1) [] hnl (by simp [hlen])
      rw [List.append_nil] at hc
      rw [hc]
      simp [renderRowList, renderRow, loopP, joinNl]
  | r :: r2 :: rs, y, _, h => by
    have hlen : r.length = x_len := (h r (List.mem_cons_self r _)).1
    have hnl : ∀ c ∈ r, c ≠ '\n' := (h r (List.mem_cons_self r _)).2
    have hgood : ∀ m ∈ r2 :: rs, m.length = x_len ∧ ∀ c ∈ m, c ≠ '\n' :=
      fun m hm => h m (List.mem_cons_of_mem _ hm)
    have ihy : ∀ y', boldOn.data ++ loopP ctx x_len (joinNl (r2 :: rs)) x_len y' [] ++
        unboldSeq.data ++ styleReset.data = joinNl (renderRowList ctx (r2 :: rs) (y' + 1)) :=
      fun y' => loopP_rows_tail ctx x_len (r2 :: rs) y' (by simp) hgood
    have hjoin : joinNl (r :: r2 :: rs) = r ++ '\n' :: joinNl (r2 :: rs) :=
      joinNl_cons r (r2 :: rs) (by simp)
    rcases r with _ | ⟨c, r'⟩
    · -- a zero-width row: the whole grid is zero-width
      have hx0 : x_len = 0 := by simpa using hlen.symm
      have hallnil : ∀ m ∈ r2 :: rs, m = [] := by
        intro m hm
        have := (hgood m hm).1
        rw [hx0] at this
        exact List.eq_nil_of_length_eq_zero this
      rw [hjoin, List.nil_append, loopP_nl]
      have hstep := ihy y
      calc boldOn.data ++ (styleReset.data ++ '\n' ::
            (boldOn.data ++ loopP ctx x_len (joinNl (r2 :: rs)) x_len y [])) ++
            unboldSeq.data ++ styleReset.data
          = (boldOn.data ++ styleReset.data) ++ '\n' ::
            (boldOn.data ++ loopP ctx x_len (joinNl (r2 :: rs)) x_len y [] ++
              unboldSeq.data ++ styleReset.data) := by
            simp [List.append_assoc]
        _ = (boldOn.data ++ styleReset.data) ++ '\n' ::
            joinNl (renderRowList ctx (r2 :: rs) (y + 1)) := by rw [hstep]
        _ = joinNl (renderRowList ctx ([] :: r2 :: rs) (y + 1)) := by
            rw [show renderRowList ctx ([] :: r2 :: rs) (y + 1) =
              (boldOn.data ++ renderRow ctx (y + 1) [] ++ styleReset.data) ::
                renderRowList ctx (r2 :: rs) (y + 2) from rfl]
            rw [joinNl_cons _ _ (renderRowList_ne_nil ctx (r2 :: rs) (y + 2) (by simp))]
            rw [renderRowList_congr_y ctx (r2 :: rs) (y + 2) (y + 1) hallnil]
            simp [renderRow_nil]
    · have hx : 0 < x_len := by rw [← hlen]; simp
      rw [hjoin]
      have hshift : loopP ctx x_len ((c :: r') ++ '\n' :: joinNl (r2 :: rs)) x_len y [] =
          loopP ctx x_len ((c :: r') ++ '\n' :: joinNl (r2 :: rs)) 0 (y + 1) [] := by
        simp only [List.cons_append]
        exact loopP_shift ctx x_len hx c (hnl c (List.mem_cons_self c r')) _ y []
      rw [hshift, loopP_cells ctx x_len (c :: r') _ 0 (y + 1) [] hnl (by simp [hlen]), loopP_nl,
        Nat.zero_add, hlen]
      have hstep := ihy (y + 1)
      calc boldOn.data ++ (emitFrom ctx (y + 1) (c :: r') 0 [] ++
            (styleReset.data ++ '\n' ::
              (boldOn.data ++ loopP ctx x_len (joinNl (r2 :: rs)) x_len (y + 1) []))) ++
            unboldSeq.data ++ styleReset.data
          = (boldOn.data ++ emitFrom ctx (y + 1) (c :: r') 0 [] ++ styleReset.data) ++ '\n' ::
            (boldOn.data ++ loopP ctx x_len (joinNl (r2 :: rs)) x_len (y + 1) [] ++
              unboldSeq.data ++ styleReset.data) := by
            simp [List.append_assoc]
        _ = (boldOn.data ++ renderRow ctx (y + 1) (c :: r') ++ styleReset.data) ++ '\n' ::
            joinNl (renderRowList ctx (r2 :: rs) (y + 2)) := by
            rw [hstep]
            rfl
        _ = joinNl (renderRowList ctx ((c :: r') :: r2 :: rs) (y + 1)) := by
            rw [show renderRowList ctx ((c :: r') :: r2 :: rs) (y + 1) =
              (boldOn.data ++ renderRow ctx (y + 1) (c :: r') ++ styleReset.data) ::
                renderRowList ctx (r2 :: rs) (y + 2) from rfl]
            rw [joinNl_cons _ _ (renderRowList_ne_nil ctx (r2 :: rs) (y + 2) (by simp))]

/-- Master decomposition: the full output of the character loop on a
rectangular newline-joined grid is the joined list of rendered rows. -/
lemma loopP_master (ctx : RenderCtx) (x_len : ℕ) :
    ∀ (rows : List (List Char)), rows ≠ [] →
      (∀ r ∈ rows, r.length = x_len ∧ ∀ c ∈ r, c ≠ '\n') →
      boldOn.data ++ loopP ctx x_len (joinNl rows) 0 0 [] ++ unboldSeq.data ++ styleReset.data
        = joinNl (renderRowList ctx rows 0)
  | [], hne, _ => absurd rfl hne
  | [r], _, h => by
    have hlen : r.length = x_len := (h r (List.mem_cons_self r [])).1
    have hnl : ∀ c ∈ r, c ≠ '\n' := (h r (List.mem_cons_self r [])).2
    have hc := loopP_cells ctx x_len r [] 0 0 [] hnl (by simp [hlen])
    rw [List.append_nil] at hc
    show boldOn.data ++ loopP ctx x_len r 0 0 [] ++ _ ++ _ = _
    rw [hc]
    simp [renderRowList, renderRow, loopP, joinNl]
  | r :: r2 :: rs, _, h => by
    have hlen : r.length = x_len := (h r (List.mem_cons_self r _)).1
    have hnl : ∀ c ∈ r, c ≠ '\n' := (h r (List.mem_cons_self r _)).2
    have hgood : ∀ m ∈ r2 :: rs, m.length = x_len ∧ ∀ c ∈ m, c ≠ '\n' :=
      fun m hm => h m (List.mem_cons_of_mem _ hm)
    have hjoin : joinNl (r :: r2 :: rs) = r ++ '\n' :: joinNl (r2 :: rs) :=
      joinNl_cons r (r2 :: rs) (by simp)
    rw [hjoin, loopP_cells ctx x_len r _ 0 0 [] hnl (by simp [hlen]), loopP_nl,
      Nat.zero_add, hlen]
    have hstep := loopP_rows_tail ctx x_len (r2 :: rs) 0 (by simp) hgood
    calc boldOn.data ++ (emitFrom ctx 0 r 0 [] ++
          (styleReset.data ++ '\n' ::
            (boldOn.data ++ loopP ctx x_len (joinNl (r2 :: rs)) x_len 0 []))) ++
          unboldSeq.data ++ styleReset.data
        = (boldOn.data ++ emitFrom ctx 0 r 0 [] ++ styleReset.data) ++ '\n' ::
          (boldOn.data ++ loopP ctx x_len (joinNl (r2 :: rs)) x_len 0 [] ++
            unboldSeq.data ++ styleReset.data) := by
          simp [List.append_assoc]
      _ = (boldOn.data ++ renderRow ctx 0 r ++ styleReset.data) ++ '\n' ::
          joinNl (renderRowList ctx (r2 :: rs) 1) := by
          rw [hstep]
          rfl
      _ = joinNl (renderRowList ctx (r :: r2 :: rs) 0) := by
          rw [show renderRowList ctx (r :: r2 :: rs) 0 =
            (boldOn.data ++ renderRow ctx 0 r ++ styleReset.data) ::
              renderRowList ctx (r2 :: rs) 1 from rfl]
          rw [joinNl_cons _ _ (renderRowList_ne_nil ctx (r2 :: rs) 1 (by simp))]

lemma rows_good (a2 : List Char) (hfix : stripColors a2 = a2) :
    ∀ r ∈ splitNl (normalizeAscii a2),
      r.length = maxList ((splitNl a2).map List.length) ∧ ∀ c ∈ r, c ≠ '\n' := by
  intro r hr
  refine ⟨?_, ?_⟩
  · have := normalizeAscii_line_length a2 hfix r hr
    rw [this]
    simp [asciiWidth, hfix]
  · intro c hc heq
    exact mem_splitNl_no_nl (normalizeAscii a2) r hr (heq ▸ hc)

lemma joinNl_splitNl_normalize (a2 : List Char) :
    joinNl (splitNl (normalizeAscii a2)) = normalizeAscii a2 := by
  have hmap : splitNl (normalizeAscii a2) =
      (splitNl a2).map (fun l => ljust l (asciiWidth a2)) := by
    apply splitNl_joinNl
    · simp [splitNl_ne_nil a2]
    · intro l hl
      rcases List.mem_map.mp hl with ⟨m, hm, rfl⟩
      exact no_nl_ljust m _ (mem_splitNl_no_nl a2 m hm)
  rw [hmap]
  rfl

/-- With a recognized lightness mode and a resolvable flag, `recolor_ascii`
returns exactly the joined rendered rows (the frame escapes, one bold-on
per row, per-row emission with a cleared tracker, per-row trailing resets,
the final unbold + reset). -/
lemma recolorAscii_render (asc : String) (files : List String) (srcImgs : String → Img)
    (flag : String) (light : ℚ) (mode : Option String) (fg : Bool) (rot : ℤ) (term : String)
    (img : Img) (hmode : mode ∈ recognizedModes)
    (hfix : stripColors (stripColors (fillStarting asc.data)) = stripColors (fillStarting asc.data))
    (himg : getFlag files srcImgs flag
        (maxList ((splitNl (stripColors (fillStarting asc.data))).map List.length))
        (splitNl (stripColors (fillStarting asc.data))).length rot = .ok img) :
    recolorAscii asc files srcImgs flag light mode fg rot term =
      .ok ⟨joinNl (renderRowList ⟨img.pix, mode, light, fg, term⟩
        (splitNl (normalizeAscii (stripColors (fillStarting asc.data)))) 0)⟩ := by
  have hmaster := loopP_master ⟨img.pix, mode, light, fg, term⟩
    (maxList ((splitNl (stripColors (fillStarting asc.data))).map List.length))
    (splitNl (normalizeAscii (stripColors (fillStarting asc.data))))
    (splitNl_ne_nil _)
    (rows_good (stripColors (fillStarting asc.data)) hfix)
  rw [joinNl_splitNl_normalize] at hmaster
  simp only [recolorAscii]
  rw [himg, except_bind_ok,
    recolorLoop_ok img.pix mode light fg term _ hmode, except_bind_ok]
  congr 1
  exact congrArg String.mk hmaster

/-! ## Character classes of the emitted escape material -/

lemma digitChar_props (n : ℕ) : digitChar n ≠ '\x1b' ∧ digitChar n ≠ '\n' := by
  have h10 : n % 10 < 10 := Nat.mod_lt n (by norm_num)
  have key : ∀ k, k < 10 → Char.ofNat (48 + k) ≠ '\x1b' ∧ Char.ofNat (48 + k) ≠ '\n' := by
    decide
  exact key (n % 10) h10

lemma natDigits_props : ∀ (fuel n : ℕ), ∀ c ∈ natDigits fuel n, c ≠ '\x1b' ∧ c ≠ '\n' := by
  intro fuel
  induction fuel with
  | zero => intro n c hc; simp [natDigits] at hc
  | succ fuel ih =>
    intro n c hc
    rw [natDigits] at hc
    by_cases h : n < 10
    · rw [if_pos h] at hc
      simp at hc
      rw [hc]
      exact digitChar_props n
    · rw [if_neg h] at hc
      rcases List.mem_append.mp hc with hc | hc
      · exact ih (n / 10) c hc
      · simp at hc
        rw [hc]
        exact digitChar_props (n % 10)

lemma natStr_props (n : ℕ) : ∀ c ∈ natStr n, c ≠ '\x1b' ∧ c ≠ '\n' :=
  natDigits_props (n + 1) n

lemma toAnsi_ne_nil (fg : Bool) (c : RGB) : toAnsi fg c ≠ [] := by simp [toAnsi]

lemma toAnsi_chars (fg : Bool) (c : RGB) : ∀ ch ∈ toAnsi fg c,
    ch = '\x1b' ∨ ch = '[' ∨ ch = '3' ∨ ch = '4' ∨ ch = '8' ∨ ch = ';' ∨ ch = '2' ∨
      ch = 'm' ∨ ch ∈ natStr c.r ∨ ch ∈ natStr c.g ∨ ch ∈ natStr c.b := by
  intro ch h
  simp only [toAnsi, List.mem_cons, List.mem_append, List.mem_singleton] at h
  rcases fg <;> simp_all <;> tauto

lemma toAnsi_no_nl (fg : Bool) (c : RGB) : ∀ ch ∈ toAnsi fg c, ch ≠ '\n' := by
  intro ch h
  rcases toAnsi_chars fg c ch h with rfl | rfl | rfl | rfl | rfl | rfl | rfl | rfl | h | h | h
  · decide
  · decide
  · decide
  · decide
  · decide
  · decide
  · decide
  · decide
  · exact (natStr_props c.r ch h).2
  · exact (natStr_props c.g ch h).2
  · exact (natStr_props c.b ch h).2

/-- The non-escape tail of `toAnsi`: everything after the leading `ESC`. -/
lemma toAnsi_decomp (fg : Bool) (c : RGB) :
    toAnsi fg c = switchPat fg ++
      (natStr c.r ++ ';' :: natStr c.g ++ ';' :: natStr c.b ++ ['m']) := rfl

/-! ## Counting switch escapes -/

lemma countPat_nil (p : List Char) : countPat p [] = 0 := rfl

lemma countPat_cons_ne_head (p' : List Char) (c : Char) (z : List Char) (hc : c ≠ '\x1b') :
    countPat ('\x1b' :: p') (c :: z) = countPat ('\x1b' :: p') z := by
  have hpre : List.isPrefixOf ('\x1b' :: p') (c :: z) = false := by
    simp [List.isPrefixOf]
    intro h
    exact absurd h.symm hc
  simp [countPat, hpre]

lemma countPat_escFree_append (p' : List Char) :
    ∀ (s r : List Char), (∀ c ∈ s, c ≠ '\x1b') →
      countPat ('\x1b' :: p') (s ++ r) = countPat ('\x1b' :: p') r := by
  intro s
  induction s with
  | nil => intro r _; rfl
  | cons c s ih =>
    intro r h
    rw [List.cons_append, countPat_cons_ne_head p' c _ (h c (List.mem_cons_self c s))]
    exact ih r (fun m hm => h m (List.mem_cons_of_mem c hm))

lemma isPrefixOf_append_self : ∀ (p t : List Char), List.isPrefixOf p (p ++ t) = true := by
  intro p
  induction p with
  | nil => intro t; simp [List.isPrefixOf]
  | cons c p ih => intro t; simp [List.isPrefixOf, ih]

/-- Counting at an occurrence of the full pattern itself. -/
lemma countPat_self_head (p' t : List Char) (hne : ∀ c ∈ p', c ≠ '\x1b') :
    countPat ('\x1b' :: p') (('\x1b' :: p') ++ t) = 1 + countPat ('\x1b' :: p') t := by
  rw [show (('\x1b' :: p') ++ t) = '\x1b' :: (p' ++ t) from rfl, countPat]
  rw [show List.isPrefixOf ('\x1b' :: p') ('\x1b' :: (p' ++ t)) =
    List.isPrefixOf ('\x1b' :: p') (('\x1b' :: p') ++ t) from rfl]
  rw [isPrefixOf_append_self, countPat_escFree_append p' p' t hne]
  simp

/-- Each emitted color escape contains the switch pattern exactly once. -/
lemma countPat_toAnsi (fg : Bool) (c : RGB) (rest : List Char) :
    countPat (switchPat fg) (toAnsi fg c ++ rest) = 1 + countPat (switchPat fg) rest := by
  have hesc : ∀ ch ∈ natStr c.r ++ ';' :: natStr c.g ++ ';' :: natStr c.b ++ ['m'],
      ch ≠ '\x1b' := by
    intro ch h
    have hcl : ch ∈ natStr c.r ∨ ch ∈ natStr c.g ∨ ch ∈ natStr c.b ∨ ch = ';' ∨ ch = 'm' := by
      simp only [List.mem_append, List.mem_cons, List.mem_singleton] at h
      tauto
    rcases hcl with h | h | h | rfl | rfl
    · exact (natStr_props c.r ch h).1
    · exact (natStr_props c.g ch h).1
    · exact (natStr_props c.b ch h).1
    · decide
    · decide
  have htail : ∀ ch ∈ ['[', if fg then '3' else '4', '8', ';', '2', ';'], ch ≠ '\x1b' := by
    rcases fg <;> decide
  have hsw : switchPat fg = '\x1b' :: ['[', if fg then '3' else '4', '8', ';', '2', ';'] := rfl
  have h1 : toAnsi fg c ++ rest = ('\x1b' :: ['[', if fg then '3' else '4', '8', ';', '2', ';']) ++
      ((natStr c.r ++ ';' :: natStr c.g ++ ';' :: natStr c.b ++ ['m']) ++ rest) := by
    rw [toAnsi_decomp, List.append_assoc]
    rfl
  rw [h1, hsw, countPat_self_head _ _ htail,
    countPat_escFree_append _ _ rest hesc]

lemma switchPat_head (fg : Bool) :
    switchPat fg = '\x1b' :: ['[', if fg then '3' else '4', '8', ';', '2', ';'] := rfl

/-- The bold-on frame contains no occurrence of the switch pattern. -/
lemma countPat_boldOn (fg : Bool) (r : List Char) :
    countPat (switchPat fg) (boldOn.data ++ r) = countPat (switchPat fg) r := by
  have h0 : List.isPrefixOf (switchPat fg) (boldOn.data ++ r) = false := by
    rcases fg <;> simp [switchPat, boldOn, List.isPrefixOf]
  rw [show boldOn.data ++ r = '\x1b' :: '[' :: '1' :: 'm' :: r from rfl] at h0 ⊢
  rw [countPat, h0, switchPat_head, countPat_cons_ne_head _ '[' _ (by decide),
    countPat_cons_ne_head _ '1' _ (by decide), countPat_cons_ne_head _ 'm' _ (by decide)]
  simp

/-- The full style reset contains no occurrence of the switch pattern. -/
lemma countPat_styleReset (fg : Bool) (r : List Char) :
    countPat (switchPat fg) (styleReset.data ++ r) = countPat (switchPat fg) r := by
  have h0 : List.isPrefixOf (switchPat fg) (styleReset.data ++ r) = false := by
    rcases fg <;> simp [switchPat, styleReset, List.isPrefixOf]
  rw [show styleReset.data ++ r = '\x1b' :: '[' :: '0' :: 'm' :: r from rfl] at h0 ⊢
  rw [countPat, h0, switchPat_head, countPat_cons_ne_head _ '[' _ (by decide),
    countPat_cons_ne_head _ '0' _ (by decide), countPat_cons_ne_head _ 'm' _ (by decide)]
  simp

/-- The unbold escape contains no occurrence of the switch pattern. -/
lemma countPat_unbold (fg : Bool) (r : List Char) :
    countPat (switchPat fg) (unboldSeq.data ++ r) = countPat (switchPat fg) r := by
  have h0 : List.isPrefixOf (switchPat fg) (unboldSeq.data ++ r) = false := by
    rcases fg <;> simp [switchPat, unboldSeq, List.isPrefixOf]
  rw [show unboldSeq.data ++ r = '\x1b' :: '[' :: '2' :: '2' :: 'm' :: r from rfl] at h0 ⊢
  rw [countPat, h0, switchPat_head, countPat_cons_ne_head _ '[' _ (by decide),
    countPat_cons_ne_head _ '2' _ (by decide), countPat_cons_ne_head _ '2' _ (by decide),
    countPat_cons_ne_head _ 'm' _ (by decide)]
  simp

/-- A cell color escape keeps the `switchPat` shape of `countPat_toAnsi`. -/
lemma countPat_cellStr (ctx : RenderCtx) (x y : ℕ) (rest : List Char) :
    countPat (switchPat ctx.fg) (cellStr ctx x y ++ rest) =
      1 + countPat (switchPat ctx.fg) rest :=
  countPat_toAnsi ctx.fg _ rest

lemma countPat_switchPat_cons_ne (fg : Bool) (c : Char) (z : List Char) (hc : c ≠ '\x1b') :
    countPat (switchPat fg) (c :: z) = countPat (switchPat fg) z :=
  countPat_cons_ne_head _ c z hc

/-- The switch escapes in the emission of one row are numbered by the
tracker switches over the per-cell color strings. -/
lemma countPat_emitFrom (ctx : RenderCtx) (y : ℕ) :
    ∀ (cells : List Char) (x : ℕ) (cur rest : List Char), (∀ c ∈ cells, c ≠ '\x1b') →
      countPat (switchPat ctx.fg) (emitFrom ctx y cells x cur ++ rest) =
        switchCount cur (cellStrsFrom ctx y cells x) + countPat (switchPat ctx.fg) rest := by
  intro cells
  induction cells with
  | nil => intro x cur rest _; simp [emitFrom, cellStrsFrom, switchCount]
  | cons ch cells ih =>
    intro x cur rest h
    have hch : ch ≠ '\x1b' := h ch (List.mem_cons_self ch cells)
    have htail : ∀ c ∈ cells, c ≠ '\x1b' := fun c hc => h c (List.mem_cons_of_mem ch hc)
    rw [emitFrom, cellStrsFrom, switchCount]
    by_cases hcur : cellStr ctx x y ≠ cur
    · rw [if_pos hcur, if_pos hcur]
      have hassoc : (cellStr ctx x y ++ ch :: emitFrom ctx y cells (x + 1) (cellStr ctx x y)) ++ rest =
          cellStr ctx x y ++ (ch :: (emitFrom ctx y cells (x + 1) (cellStr ctx x y) ++ rest)) := by
        simp
      rw [hassoc, countPat_cellStr, countPat_switchPat_cons_ne ctx.fg ch _ hch,
        ih (x + 1) (cellStr ctx x y) rest htail]
      omega
    · rw [if_neg hcur, if_neg hcur]
      rw [List.nil_append, List.cons_append, countPat_switchPat_cons_ne ctx.fg ch _ hch,
        ih (x + 1) (cellStr ctx x y) rest htail]
      omega

/-- Tracker switches count exactly the maximal runs when the tracker starts
on a value that no element takes. -/
lemma switchCount_add_head {α : Type} [DecidableEq α] :
    ∀ (cs : List α) (cur : α), cs ≠ [] →
      switchCount cur cs + (if cs.headD cur = cur then 1 else 0) = runsCount cs
  | [], _, hne => absurd rfl hne
  | [c], cur, _ => by
    by_cases h : c = cur <;> simp [switchCount, runsCount, h]
  | c :: c2 :: r, cur, _ => by
    have ih := switchCount_add_head (c2 :: r) c (by simp)
    simp only [switchCount, runsCount, List.headD_cons] at ih ⊢
    split_ifs at ih ⊢ <;> try omega
    all_goals (exfalso; tauto)

lemma switchCount_eq_runsCount {α : Type} [DecidableEq α] (cs : List α) (cur : α)
    (h : ∀ c ∈ cs, c ≠ cur) : switchCount cur cs = runsCount cs := by
  rcases cs with _ | ⟨c, r⟩
  · rfl
  · have := switchCount_add_head (c :: r) cur (by simp)
    rw [List.headD_cons, if_neg (h c (List.mem_cons_self c r))] at this
    omega

/-- Applying a function can only merge runs, never split them. -/
lemma runsCount_map_le {α β : Type} [DecidableEq α] [DecidableEq β] (f : α → β) :
    ∀ (cs : List α), runsCount (cs.map f) ≤ runsCount cs
  | [] => le_refl 0
  | [c] => le_refl 1
  | c :: c2 :: r => by
    have ih := runsCount_map_le f (c2 :: r)
    simp only [List.map_cons, runsCount] at ih ⊢
    have : (if f c ≠ f c2 then 1 else 0) ≤ (if c ≠ c2 then 1 else 0) := by
      by_cases h : c = c2
      · simp [h]
      · simp [h]
        split <;> omega
    omega

/-- The per-cell color strings are the ANSI renderings of the transformed
row colors. -/
lemma cellStrsFrom_map (ctx : RenderCtx) (y : ℕ) :
    ∀ (cells : List Char) (x : ℕ),
      cellStrsFrom ctx y cells x =
        (List.range cells.length).map (fun j => cellStr ctx (x + j) y) := by
  intro cells
  induction cells with
  | nil => intro x; rfl
  | cons ch cells ih =>
    intro x
    rw [cellStrsFrom, ih (x + 1), List.length_cons, List.range_succ_eq_map]
    simp only [List.map_cons, List.map_map]
    congr 1
    apply List.map_congr_left
    intro j hj
    simp only [Function.comp_apply]
    have hidx : x + 1 + j = x + (j + 1) := by omega
    rw [hidx]

lemma cellStrsFrom_zero (ctx : RenderCtx) (y : ℕ) (row : List Char) :
    cellStrsFrom ctx y row 0 = (rowTransformed ctx row.length y).map (toAnsi ctx.fg) := by
  rw [cellStrsFrom_map ctx y row 0, rowTransformed, List.map_map]
  apply List.map_congr_left
  intro j _
  simp [cellStr]

/-! ## Structure of the rendered rows -/

lemma emitFrom_no_nl (ctx : RenderCtx) (y : ℕ) :
    ∀ (cells : List Char) (x : ℕ) (cur : List Char), (∀ c ∈ cells, c ≠ '\n') →
      ∀ ch ∈ emitFrom ctx y cells x cur, ch ≠ '\n' := by
  intro cells
  induction cells with
  | nil => intro x cur _ ch hch; simp [emitFrom] at hch
  | cons c cells ih =>
    intro x cur h ch hch
    rw [emitFrom] at hch
    rcases List.mem_append.mp hch with hch | hch
    · by_cases hc : cellStr ctx x y ≠ cur
      · rw [if_pos hc] at hch
        exact toAnsi_no_nl ctx.fg _ ch hch
      · rw [if_neg hc] at hch
        simp at hch
    · rcases List.mem_cons.mp hch with rfl | hch
      · exact h ch (List.mem_cons_self ch cells)
      · exact ih (x + 1) (cellStr ctx x y) (fun m hm => h m (List.mem_cons_of_mem c hm)) ch hch

/-- Every rendered row is a bold-on, then a row emission from a cleared
tracker, then either a reset (non-final rows) or unbold + reset (final
row). -/
lemma mem_renderRowList (ctx : RenderCtx) :
    ∀ (rows : List (List Char)) (y : ℕ) (m : List Char), m ∈ renderRowList ctx rows y →
      ∃ (y' : ℕ) (r : List Char), r ∈ rows ∧
        (m = boldOn.data ++ renderRow ctx y' r ++ styleReset.data ∨
         m = boldOn.data ++ renderRow ctx y' r ++ unboldSeq.data ++ styleReset.data)
  | [], _, m, hm => by simp [renderRowList] at hm
  | [r], y, m, hm => by
    simp only [renderRowList, List.mem_singleton] at hm
    exact ⟨y, r, List.mem_cons_self r [], Or.inr hm⟩
  | r :: r2 :: rs, y, m, hm => by
    rcases List.mem_cons.mp hm with hm | hm
    · exact ⟨y, r, List.mem_cons_self r _, Or.inl hm⟩
    · rcases mem_renderRowList ctx (r2 :: rs) (y + 1) m hm with ⟨y', r', hr', hshape⟩
      exact ⟨y', r', List.mem_cons_of_mem r hr', hshape⟩

lemma renderRowList_no_nl (ctx : RenderCtx) (rows : List (List Char)) (y : ℕ)
    (hnl : ∀ r ∈ rows, ∀ c ∈ r, c ≠ '\n') :
    ∀ m ∈ renderRowList ctx rows y, '\n' ∉ m := by
  intro m hm hnlm
  rcases mem_renderRowList ctx rows y m hm with ⟨y', r, hr, hshape⟩
  have hrow : ∀ ch ∈ renderRow ctx y' r, ch ≠ '\n' :=
    emitFrom_no_nl ctx y' r 0 [] (hnl r hr)
  rcases hshape with rfl | rfl
  · rcases List.mem_append.mp hnlm with h | h
    · rcases List.mem_append.mp h with h | h
      · simp [boldOn] at h
      · exact hrow '\n' h rfl
    · simp [styleReset] at h
  · rcases List.mem_append.mp hnlm with h | h
    · rcases List.mem_append.mp h with h | h
      · rcases List.mem_append.mp h with h | h
        · simp [boldOn] at h
        · exact hrow '\n' h rfl
      · simp [unboldSeq] at h
    · simp [styleReset] at h

lemma renderRowList_length (ctx : RenderCtx) :
    ∀ (rows : List (List Char)) (y : ℕ), (renderRowList ctx rows y).length = rows.length
  | [], _ => rfl
  | [_], _ => rfl
  | r :: r2 :: rs, y => by
    rw [show renderRowList ctx (r :: r2 :: rs) y =
      (boldOn.data ++ renderRow ctx y r ++ styleReset.data) ::
        renderRowList ctx (r2 :: rs) (y + 1) from rfl]
    simp [renderRowList_length ctx (r2 :: rs) (y + 1)]

/-- Index formula for the rendered rows. -/
lemma renderRowList_getD (ctx : RenderCtx) :
    ∀ (rows : List (List Char)) (y i : ℕ), i < rows.length →
      (renderRowList ctx rows y).getD i [] =
        boldOn.data ++ renderRow ctx (y + i) (rows.getD i []) ++
          (if i + 1 = rows.length then unboldSeq.data ++ styleReset.data else styleReset.data)
  | [], _, i, hi => by simp at hi
  | [r], y, i, hi => by
    have hi0 : i = 0 := by simpa using Nat.lt_one_iff.mp (by simpa using hi)
    subst hi0
    simp [renderRowList, List.append_assoc]
  | r :: r2 :: rs, y, i, hi => by
    rcases i with _ | j
    · have : ¬ (0 + 1 = (r :: r2 :: rs).length) := by simp
      rw [if_neg this]
      simp [renderRowList]
    · have hj : j < (r2 :: rs).length := by simpa using hi
      have ih := renderRowList_getD ctx (r2 :: rs) (y + 1) j hj
      rw [show renderRowList ctx (r :: r2 :: rs) y =
        (boldOn.data ++ renderRow ctx y r ++ styleReset.data) ::
          renderRowList ctx (r2 :: rs) (y + 1) from rfl]
      rw [List.getD_cons_succ, ih]
      have h1 : y + 1 + j = y + (j + 1) := by omega
      rw [h1]
      rw [show ((r :: r2 :: rs).getD (j + 1) []) = ((r2 :: rs).getD j []) from rfl]
      by_cases hfin : j + 1 = (r2 :: rs).length
      · rw [if_pos hfin, if_pos (by simp only [List.length_cons] at hfin ⊢; omega)]
      · rw [if_neg hfin, if_neg (by simp only [List.length_cons] at hfin ⊢; omega)]

/-! ## Character propagation through the pipeline -/

lemma mem_of_mem_splitNl : ∀ (a : List Char) (l : List Char), l ∈ splitNl a →
    ∀ c ∈ l, c ∈ a := by
  intro a
  induction a with
  | nil => intro l hl c hc; simp [splitNl] at hl; subst hl; simp at hc
  | cons c0 rest ih =>
    intro l hl c hc
    by_cases h0 : c0 = '\n'
    · subst h0
      rw [splitNl_cons_nl] at hl
      rcases List.mem_cons.mp hl with rfl | hl
      · simp at hc
      · exact List.mem_cons_of_mem _ (ih l hl c hc)
    · rw [splitNl_cons c0 rest h0] at hl
      rcases List.mem_cons.mp hl with rfl | hl
      · rcases List.mem_cons.mp hc with rfl | hc
        · exact List.mem_cons_self c rest
        · rcases hs : splitNl rest with _ | ⟨x, xs⟩
          · exact absurd hs (splitNl_ne_nil rest)
          · rw [hs] at hc
            simp only [List.headD_cons] at hc
            exact List.mem_cons_of_mem _ (ih x (by rw [hs]; exact List.mem_cons_self x xs) c hc)
      · have : l ∈ splitNl rest := List.mem_of_mem_tail hl
        exact List.mem_cons_of_mem _ (ih l this c hc)

lemma mem_joinNl : ∀ (ls : List (List Char)) (c : Char), c ∈ joinNl ls →
    c = '\n' ∨ ∃ l ∈ ls, c ∈ l
  | [], c, hc => by simp [joinNl] at hc
  | [l], c, hc => Or.inr ⟨l, List.mem_cons_self l [], hc⟩
  | l :: l2 :: ls, c, hc => by
    rw [joinNl_cons l (l2 :: ls) (by simp)] at hc
    rcases List.mem_append.mp hc with hc | hc
    · exact Or.inr ⟨l, List.mem_cons_self l _, hc⟩
    · rcases List.mem_cons.mp hc with rfl | hc
      · exact Or.inl rfl
      · rcases mem_joinNl (l2 :: ls) c hc with h | ⟨m, hm, hcm⟩
        · exact Or.inl h
        · exact Or.inr ⟨m, List.mem_cons_of_mem l hm, hcm⟩

lemma mem_ljust (l : List Char) (w : ℕ) (c : Char) (h : c ∈ ljust l w) :
    c ∈ l ∨ c = ' ' := by
  rcases List.mem_append.mp h with h | h
  · exact Or.inl h
  · exact Or.inr (List.eq_of_mem_replicate h)

lemma phDigit_ne (d : Char) (h : phDigit d = true) : d ≠ '\x1b' ∧ d ≠ '\n' := by
  constructor <;> intro heq <;> subst heq <;> exact absurd h (by decide)

lemma stripColors_cons_generic (c0 : Char) (rest : List Char)
    (hpat : ∀ (d : Char) (r2 : List Char), c0 = '$' → rest = '{' :: 'c' :: d :: '}' :: r2 → False) :
    stripColors (c0 :: rest) = c0 :: stripColors rest := by
  rw [stripColors.eq_def]
  split
  · rename_i x d r2 heq
    injection heq with h1 h2
    exact (hpat d r2 h1 h2).elim
  · rename_i x c1 rest1 hno heq
    injection heq with h1 h2
    rw [h1, h2]
  · rename_i heq
    simp at heq

lemma findAllColors_cons_generic (c0 : Char) (rest : List Char)
    (hpat : ∀ (d : Char) (r2 : List Char), c0 = '$' → rest = '{' :: 'c' :: d :: '}' :: r2 → False) :
    findAllColors (c0 :: rest) = findAllColors rest := by
  rw [findAllColors.eq_def]
  split
  · rename_i x d r2 heq
    injection heq with h1 h2
    exact (hpat d r2 h1 h2).elim
  · rename_i x c1 rest1 hno heq
    injection heq with h1 h2
    rw [h2]
  · rename_i heq
    simp at heq

lemma stripColors_all (P : Char → Prop) : ∀ (a : List Char), (∀ c ∈ a, P c) →
    ∀ c ∈ stripColors a, P c := by
  intro a
  induction a using stripColors.induct with
  | case1 d rest hd ih =>
    intro h c hc
    rw [stripColors, if_pos hd] at hc
    exact ih (fun m hm => h m (by simp [hm])) c hc
  | case2 d rest hd ih =>
    intro h c hc
    rw [stripColors, if_neg hd] at hc
    rcases List.mem_cons.mp hc with rfl | hc
    · exact h _ (List.mem_cons_self _ _)
    · exact ih (fun m hm => h m (List.mem_cons_of_mem _ hm)) c hc
  | case3 c0 rest hpat ih =>
    intro h c hc
    rw [stripColors_cons_generic c0 rest hpat] at hc
    rcases List.mem_cons.mp hc with rfl | hc
    · exact h _ (List.mem_cons_self _ _)
    · exact ih (fun m hm => h m (List.mem_cons_of_mem _ hm)) c hc
  | case4 =>
    intro h c hc
    simp [stripColors] at hc

lemma findAllColors_shape : ∀ (a : List Char), ∀ m ∈ findAllColors a,
    ∃ d, phDigit d ∧ m = ['$', '{', 'c', d, '}'] := by
  intro a
  induction a using findAllColors.induct with
  | case1 d rest hd ih =>
    intro m hm
    rw [findAllColors, if_pos hd] at hm
    rcases List.mem_cons.mp hm with rfl | hm
    · exact ⟨d, hd, rfl⟩
    · exact ih m hm
  | case2 d rest hd ih =>
    intro m hm
    rw [findAllColors, if_neg hd] at hm
    exact ih m hm
  | case3 c0 rest hpat ih =>
    intro m hm
    rw [findAllColors_cons_generic c0 rest hpat] at hm
    exact ih m hm
  | case4 =>
    intro m hm
    simp [findAllColors] at hm

lemma mem_of_getLastQ {α : Type} : ∀ (l : List α) (a : α), l.getLast? = some a → a ∈ l
  | [], a, h => by simp at h
  | [x], a, h => by simp at h; simp [h]
  | x :: y :: r, a, h => by
    rw [List.getLast?_cons_cons] at h
    exact List.mem_cons_of_mem x (mem_of_getLastQ (y :: r) a h)

lemma lastPh_chars (l m : List Char) (h : lastPh l = some m) :
    ∀ c ∈ m, c ≠ '\x1b' ∧ c ≠ '\n' := by
  have hmem : m ∈ findAllColors l := mem_of_getLastQ _ m h
  rcases findAllColors_shape l m hmem with ⟨d, hd, rfl⟩
  intro c hc
  rcases List.mem_cons.mp hc with rfl | hc
  · exact ⟨by decide, by decide⟩
  rcases List.mem_cons.mp hc with rfl | hc
  · exact ⟨by decide, by decide⟩
  rcases List.mem_cons.mp hc with rfl | hc
  · exact ⟨by decide, by decide⟩
  rcases List.mem_cons.mp hc with rfl | hc
  · exact phDigit_ne c hd
  · simp at hc
    subst hc
    exact ⟨by decide, by decide⟩

/-- Characters introduced by the `fill_starting` loop come from placeholder
matches, which never contain escape or newline characters. -/
lemma fillAux_chars (P : Char → Prop) (hP : ∀ c, c ≠ '\x1b' ∧ c ≠ '\n' → P c) :
    ∀ (ls : List (List Char)) (last : List Char), (∀ c ∈ last, P c) →
      (∀ m ∈ ls, ∀ c ∈ m, P c) → ∀ l ∈ fillAux last ls, ∀ c ∈ l, P c := by
  intro ls
  induction ls with
  | nil => intro last _ _ l hl; simp [fillAux] at hl
  | cons l0 ls ih =>
    intro last hlast hls l hl c hc
    rw [fillAux] at hl
    rcases List.mem_cons.mp hl with rfl | hl
    · rcases List.mem_append.mp hc with h | h
      · exact hlast c h
      · exact hls l0 (List.mem_cons_self l0 ls) c h
    · refine ih ((lastPh l0).getD last) ?_ (fun m hm => hls m (List.mem_cons_of_mem l0 hm)) l hl c hc
      rcases hph : lastPh l0 with _ | m0
      · simpa using hlast
      · intro ch hch
        simp only [Option.getD_some] at hch
        exact hP ch (lastPh_chars l0 m0 hph ch hch)

/-- Propagation of escape-freeness from the raw template to the normalized
grid rows walked by the engine. -/
lemma pipeline_esc_free (asc : String) (hesc : '\x1b' ∉ asc.data) :
    ∀ r ∈ splitNl (normalizeAscii (stripColors (fillStarting asc.data))),
      ∀ c ∈ r, c ≠ '\x1b' := by
  have h0 : ∀ c ∈ asc.data, c ≠ '\x1b' := fun c hc heq => hesc (heq ▸ hc)
  have h1 : ∀ c ∈ fillStarting asc.data, c ≠ '\x1b' := by
    intro c hc
    rcases mem_joinNl _ c hc with rfl | ⟨l, hl, hcl⟩
    · decide
    · exact fillAux_chars (fun c => c ≠ '\x1b') (fun c h => h.1) (splitNl asc.data) []
        (by simp) (fun m hm ch hch => h0 ch (mem_of_mem_splitNl asc.data m hm ch hch))
        l hl c hcl
  have h2 : ∀ c ∈ stripColors (fillStarting asc.data), c ≠ '\x1b' :=
    stripColors_all _ _ h1
  intro r hr c hc
  have hcn : c ∈ normalizeAscii (stripColors (fillStarting asc.data)) :=
    mem_of_mem_splitNl _ r hr c hc
  rcases mem_joinNl _ c hcn with rfl | ⟨l, hl, hcl⟩
  · decide
  · rcases List.mem_map.mp hl with ⟨m, hm, rfl⟩
    rcases mem_ljust m _ c hcl with h | rfl
    · exact h2 c (mem_of_mem_splitNl _ m hm c h)
    · decide

lemma isSuffixOf_append_self (s t : List Char) : s.isSuffixOf (t ++ s) = true := by
  simp only [List.isSuffixOf, List.reverse_append]
  exact isPrefixOf_append_self s.reverse t.reverse

lemma getLastD_irrel {α : Type} : ∀ (l : List α) (d1 d2 : α), l ≠ [] →
    l.getLastD d1 = l.getLastD d2
  | [], _, _, hne => absurd rfl hne
  | [x], _, _, _ => rfl
  | x :: y :: r, d1, d2, _ => by
    simp only [List.getLastD_cons]

/-- The last rendered row always carries the final unbold + reset. -/
lemma renderRowList_last (ctx : RenderCtx) :
    ∀ (rows : List (List Char)) (y : ℕ), rows ≠ [] →
      ∃ (y' : ℕ) (r : List Char), r ∈ rows ∧
        (renderRowList ctx rows y).getLastD [] =
          boldOn.data ++ renderRow ctx y' r ++ unboldSeq.data ++ styleReset.data
  | [], _, hne => absurd rfl hne
  | [r], y, _ => ⟨y, r, List.mem_cons_self r [], rfl⟩
  | r :: r2 :: rs, y, _ => by
    rcases renderRowList_last ctx (r2 :: rs) (y + 1) (by simp) with ⟨y', r', hr', hlast⟩
    refine ⟨y', r', List.mem_cons_of_mem r hr', ?_⟩
    rw [show renderRowList ctx (r :: r2 :: rs) y =
      (boldOn.data ++ renderRow ctx y r ++ styleReset.data) ::
        renderRowList ctx (r2 :: rs) (y + 1) from rfl]
    rw [List.getLastD_cons]
    rw [getLastD_irrel _ _ []
      (renderRowList_ne_nil ctx (r2 :: rs) (y + 1) (by simp))]
    exact hlast

lemma splitNl_normalizeAscii (a2 : List Char) :
    splitNl (normalizeAscii a2) = (splitNl a2).map (fun l => ljust l (asciiWidth a2)) := by
  apply splitNl_joinNl
  · simp [splitNl_ne_nil a2]
  · intro l hl
    rcases List.mem_map.mp hl with ⟨m, hm, rfl⟩
    exact no_nl_ljust m _ (mem_splitNl_no_nl a2 m hm)

/-! ## Claim theorems -/

/-- C1. End-to-end recolor scenario: on the raw template `"${c1}AA\nAA"`
with a 2×2 flag (top row red, bottom row blue), lightness policy none and
rotation 0, `recolor_ascii` emits exactly two rows: bold-on, one red
color-switch, the two `A` glyphs and a full reset before the newline, then
bold-on, one blue color-switch, two `A` glyphs, and the final unbold plus
full reset after the last row. -/
theorem recolor_end_to_end_scenario :
    recolorAscii "${c1}AA\nAA" ["pride.png"] (fun _ => flagTopRedBotBlue) "pride"
      (1 / 2) none true 0 "dark" =
    .ok ("\x1b[1m" ++ "\x1b[38;2;255;0;0m" ++ "AA" ++ "\x1b[0m" ++ "\n" ++
      "\x1b[1m" ++ "\x1b[38;2;0;0;255m" ++ "AA" ++ "\x1b[22m" ++ "\x1b[0m") := by rfl

/-- C3 counterexample. On the empty template the code does not return an
empty string: it still emits the bold-on/unbold/reset frame, so the claim
"empty input returns an empty string with no escape sequences" fails. -/
theorem recolor_empty_input_not_empty :
    recolorAscii "" ["pride.png"] (fun _ => flagTopRedBotBlue) "pride"
      (1 / 2) none true 0 "dark" = .ok "\x1b[1m\x1b[22m\x1b[0m" ∧
    ("\x1b[1m\x1b[22m\x1b[0m" : String) ≠ "" := ⟨rfl, by decide⟩

/-- C3 amended. On empty input (with a resolvable flag and a recognized
lightness mode) the output contains no glyphs and no color switches — it is
exactly the framing escapes bold-on, unbold, full reset. -/
theorem recolor_empty_input_frame_only (files : List String) (srcImgs : String → Img)
    (flag : String) (light : ℚ) (mode : Option String) (fg : Bool) (rot : ℤ) (term : String)
    (img : Img) (hmode : mode ∈ recognizedModes)
    (himg : getFlag files srcImgs flag 0 1 rot = .ok img) :
    recolorAscii "" files srcImgs flag light mode fg rot term =
      .ok "\x1b[1m\x1b[22m\x1b[0m" := by
  have h := recolorAscii_render "" files srcImgs flag light mode fg rot term img hmode
    (by decide) himg
  exact h

/-- Witness for C3 amended, at a concrete flag registry. -/
theorem recolor_empty_input_frame_only_witness :
    recolorAscii "" ["pride.png"] (fun _ => flagTopRedBotBlue) "pride" (1 / 2) (some "scale")
      true 0 "dark" = .ok "\x1b[1m\x1b[22m\x1b[0m" :=
  recolor_empty_input_frame_only ["pride.png"] (fun _ => flagTopRedBotBlue) "pride" (1 / 2)
    (some "scale") true 0 "dark" _ (by decide) rfl

/-- C4 counterexample. `normalize_ascii` pads raw lines (placeholders
included) to the placeholder-stripped maximum width, so on the raw template
`"${c1}A\nBB"` the first output line has stripped display length 1 while
the maximum stripped width is 2 — the normalized grid is not rectangular at
the stripped width. -/
theorem normalize_raw_template_not_rectangular :
    ¬ ∀ line ∈ splitNl (normalizeAscii "${c1}A\nBB".data),
        (stripColors line).length = asciiWidth "${c1}A\nBB".data := by decide

/-- C4 amended. For placeholder-free templates (stripping is the identity
on them — in particular the stripped template that `recolor_ascii` feeds to
the normalizer), every output line of `normalize_ascii` has length exactly
the maximum stripped width. -/
theorem normalize_stripped_rectangular (a : List Char) (hfix : stripColors a = a) :
    ∀ line ∈ splitNl (normalizeAscii a), line.length = asciiWidth a :=
  normalizeAscii_line_length a hfix

/-- Witness for C4 amended. -/
theorem normalize_stripped_rectangular_witness :
    stripColors "AB\nC".data = "AB\nC".data ∧
    ((splitNl (normalizeAscii "AB\nC".data)).getD 1 []).length = asciiWidth "AB\nC".data :=
  ⟨by decide, normalize_stripped_rectangular "AB\nC".data (by decide)
    ((splitNl (normalizeAscii "AB\nC".data)).getD 1 []) (by decide)⟩

/-- C5 counterexample. The lookup lowercases only the query, comparing it
verbatim to the file stems: with the single installed file `"Red.png"` the
request `"red"` matches case-insensitively, yet `get_flag` still fails —
so "fails exactly when no case-insensitive match exists" is false. -/
theorem get_flag_case_fold_asymmetry :
    (∃ f ∈ ["Red.png"], lowerStr (stemOf f) = lowerStr "red") ∧
    getFlag ["Red.png"] (fun _ => srcSample) "red" 1 1 0 =
      .error "red flag does not exist" := by
  constructor
  · exact ⟨"Red.png", by decide, by decide⟩
  · rfl

/-- C5 amended. `get_flag` fails — with the flag-does-not-exist error —
exactly when the lowercased requested name equals none of the installed
file names with extensions removed (the stems compared verbatim; only the
query is case-folded); and on such a failure `recolor_ascii` propagates the
same error synchronously, producing no output at all. -/
theorem get_flag_error_iff_stem_miss (files : List String) (srcImgs : String → Img)
    (flag : String) (x_len y_len : ℕ) (rot : ℤ) :
    ((∃ e, getFlag files srcImgs flag x_len y_len rot = .error e) ↔
      lowerStr flag ∉ files.map stemOf) ∧
    (lowerStr flag ∉ files.map stemOf →
      ∀ (asc : String) (light : ℚ) (mode : Option String) (fg : Bool) (term : String),
        recolorAscii asc files srcImgs flag light mode fg rot term =
          .error (lowerStr flag ++ " flag does not exist")) := by
  have hnone : lowerStr flag ∉ files.map stemOf ↔
      (files.map stemOf).indexOf? (lowerStr flag) = none := by
    rw [List.indexOf?_eq_none_iff]
    constructor
    · intro hmem x hx hbeq
      exact hmem (by rwa [show x = lowerStr flag from by simpa using hbeq] at hx)
    · intro h hmem
      exact h (lowerStr flag) hmem (by simp)
  constructor
  · constructor
    · intro he
      rcases he with ⟨e, he⟩
      rw [hnone]
      rcases hidx : (files.map stemOf).indexOf? (lowerStr flag) with _ | i
      · rfl
      · simp only [getFlag] at he
        rw [hidx] at he
        simp at he
    · intro hmem
      have h0 := hnone.mp hmem
      refine ⟨lowerStr flag ++ " flag does not exist", ?_⟩
      simp only [getFlag]
      rw [h0]
  · intro hmem asc light mode fg term
    have h0 := hnone.mp hmem
    simp only [recolorAscii, getFlag]
    rw [h0]
    rfl

/-- Witness for C5 amended: an unmatched flag name makes the whole recolor
call fail with the flag error and no output. -/
theorem get_flag_error_iff_stem_miss_witness :
    recolorAscii "A" ["red.png"] (fun _ => srcSample) "Blue" (1 / 2) none true 0 "dark" =
      .error (lowerStr "Blue" ++ " flag does not exist") :=
  (get_flag_error_iff_stem_miss ["red.png"] (fun _ => srcSample) "Blue" 1 1 0).2
    (by decide) "A" (1 / 2) none true "dark"

/-- C6. Placeholder continuation: a line with no placeholder of its own has
prepended to it the last placeholder match of the nearest preceding line
that has one; in particular, in `"${c1}AB\nCD"` the second line resolves to
slot 1. -/
theorem fill_starting_inherits_nearest :
    (∀ (ls : List (List Char)) (i j : ℕ) (m : List Char),
      j < i → i < ls.length →
      findAllColors (ls.getD i []) = [] →
      lastPh (ls.getD j []) = some m →
      (∀ k, j < k → k < i → findAllColors (ls.getD k []) = []) →
      (fillAux [] ls).getD i [] = m ++ ls.getD i []) ∧
    fillStartingStr "${c1}AB\nCD" = "${c1}AB\n${c1}CD" := by
  constructor
  · intro ls i j m hji hi _ hm hmid
    rw [fillAux_getD ls [] i hi,
      lastSeen_take_of_nearest ls i j hji (le_of_lt hi) m hm hmid]
  · decide

/-- Witness for C6, at the template `"${c1}AB\nCD"` itself. -/
theorem fill_starting_inherits_nearest_witness :
    (fillAux [] ["${c1}AB".data, "CD".data]).getD 1 [] =
      "${c1}".data ++ ["${c1}AB".data, "CD".data].getD 1 [] :=
  fill_starting_inherits_nearest.1 ["${c1}AB".data, "CD".data] 1 0 "${c1}".data
    (by decide) (by decide) (by decide) (by decide)
    (fun k h1 h2 => absurd h1 (by omega))

/-- C9. The flag image provider returns a grid of exactly the requested
dimensions: after the (bounding-box-expanding) rotation by a multiple of
90°, the nearest-neighbor resize targets exactly `width × height`. -/
theorem get_flag_exact_dims (files : List String) (srcImgs : String → Img) (flag : String)
    (w h : ℕ) (rot : ℤ) (img : Img) (hw : 0 < w) (hh : 0 < h) (hrot : rot % 90 = 0)
    (himg : getFlag files srcImgs flag w h rot = .ok img) :
    img.w = w ∧ img.h = h := by
  simp only [getFlag] at himg
  rcases hidx : (files.map stemOf).indexOf? (lowerStr flag) with _ | i
  · rw [hidx] at himg
    simp at himg
  · rw [hidx] at himg
    simp only [Except.ok.injEq] at himg
    rw [← himg]
    exact ⟨rfl, rfl⟩

/-- Witness for C9 at a 5×7 source resized to 3×2 after a 90° rotation. -/
theorem get_flag_exact_dims_witness :
    0 < 3 ∧ 0 < 2 ∧ (90 : ℤ) % 90 = 0 ∧
      (resizeNearest 3 2 (rotateExpand 90 srcSample)).w = 3 ∧
      (resizeNearest 3 2 (rotateExpand 90 srcSample)).h = 2 :=
  ⟨by decide, by decide, by decide,
    get_flag_exact_dims ["a.png"] (fun _ => srcSample) "a" 3 2 90
      (resizeNearest 3 2 (rotateExpand 90 srcSample)) (by decide) (by decide) (by decide) rfl⟩

/-- C10. The `fill_starting` loop prepends the remembered placeholder to
every line unconditionally — lines that already carry placeholders
included, as in `"${c1}AB\n${c2}CD"` — the first line receives the empty
prefix, and the remembered placeholder is always the last match of the most
recent line that had any. -/
theorem fill_starting_unconditional_prefix :
    (∀ (ls : List (List Char)) (i : ℕ), i < ls.length →
      (fillAux [] ls).getD i [] = lastSeen [] (ls.take i) ++ ls.getD i []) ∧
    (∀ ls : List (List Char), ls ≠ [] → (fillAux [] ls).getD 0 [] = ls.getD 0 []) ∧
    fillStartingStr "${c1}AB\n${c2}CD" = "${c1}AB\n${c1}${c2}CD" := by
  refine ⟨fun ls i hi => fillAux_getD ls [] i hi, fun ls hne => ?_, by decide⟩
  have h0 : 0 < ls.length := List.length_pos.mpr hne
  rw [fillAux_getD ls [] 0 h0]
  rfl

/-- Witness for C10: the second line of `"${c1}AB\n${c2}CD"` gets the
prefix remembered from line 1 even though it has its own placeholder. -/
theorem fill_starting_unconditional_prefix_witness :
    (fillAux [] ["${c1}AB".data, "${c2}CD".data]).getD 1 [] =
      lastSeen [] (["${c1}AB".data, "${c2}CD".data].take 1) ++
        ["${c1}AB".data, "${c2}CD".data].getD 1 [] :=
  fill_starting_unconditional_prefix.1 ["${c1}AB".data, "${c2}CD".data] 1 (by decide)

/-- C8. Row-boundary escape hygiene: every output row (split on newlines)
begins with the bold-on sequence; every row ends with a full style reset
(so every newline is immediately preceded by one); the last row ends with
unbold followed by the full reset, leaving no unreset escape state; and
because the `current_color` tracker is cleared at each row start, a
non-empty row's first glyph is immediately preceded by that row's own first
color escape. -/
theorem recolor_row_escape_hygiene (asc : String) (files : List String)
    (srcImgs : String → Img) (flag : String) (light : ℚ) (mode : Option String) (fg : Bool)
    (rot : ℤ) (term : String) (img : Img) (out : String)
    (hne : asc ≠ "")
    (hmode : mode ∈ recognizedModes)
    (hfix : stripColors (stripColors (fillStarting asc.data)) =
      stripColors (fillStarting asc.data))
    (himg : getFlag files srcImgs flag
      (maxList ((splitNl (stripColors (fillStarting asc.data))).map List.length))
      (splitNl (stripColors (fillStarting asc.data))).length rot = .ok img)
    (hout : recolorAscii asc files srcImgs flag light mode fg rot term = .ok out) :
    (∀ r ∈ splitNl out.data, boldOn.data.isPrefixOf r = true) ∧
    (∀ r ∈ splitNl out.data, styleReset.data.isSuffixOf r = true) ∧
    ((unboldSeq.data ++ styleReset.data).isSuffixOf ((splitNl out.data).getLastD []) = true) ∧
    (∀ (i : ℕ) (c0 : Char) (r0 : List Char),
      (splitNl (normalizeAscii (stripColors (fillStarting asc.data)))).getD i [] = c0 :: r0 →
      i < (splitNl (normalizeAscii (stripColors (fillStarting asc.data)))).length →
      (boldOn.data ++ cellStr ⟨img.pix, mode, light, fg, term⟩ 0 i).isPrefixOf
        ((splitNl out.data).getD i []) = true) := by
  have hrender := recolorAscii_render asc files srcImgs flag light mode fg rot term img
    hmode hfix himg
  have hdata : out.data = joinNl (renderRowList ⟨img.pix, mode, light, fg, term⟩
      (splitNl (normalizeAscii (stripColors (fillStarting asc.data)))) 0) := by
    have h := hout.symm.trans hrender
    simp only [Except.ok.injEq] at h
    rw [h]
  have hgood := rows_good (stripColors (fillStarting asc.data)) hfix
  have hsplit : splitNl out.data = renderRowList ⟨img.pix, mode, light, fg, term⟩
      (splitNl (normalizeAscii (stripColors (fillStarting asc.data)))) 0 := by
    rw [hdata]
    exact splitNl_joinNl _
      (renderRowList_ne_nil _ _ 0 (splitNl_ne_nil _))
      (renderRowList_no_nl _ _ 0 (fun r hr => (hgood r hr).2))
  refine ⟨?_, ?_, ?_, ?_⟩
  · intro r hr
    rw [hsplit] at hr
    rcases mem_renderRowList _ _ 0 r hr with ⟨y', rr, _, rfl | rfl⟩
    · rw [List.append_assoc]
      exact isPrefixOf_append_self _ _
    · rw [List.append_assoc, List.append_assoc]
      exact isPrefixOf_append_self _ _
  · intro r hr
    rw [hsplit] at hr
    rcases mem_renderRowList _ _ 0 r hr with ⟨y', rr, _, rfl | rfl⟩
    · exact isSuffixOf_append_self _ _
    · exact isSuffixOf_append_self _ _
  · rw [hsplit]
    rcases renderRowList_last _ _ 0 (splitNl_ne_nil _) with ⟨y', rr, _, hlast⟩
    rw [hlast, List.append_assoc (boldOn.data ++ renderRow _ y' rr)]
    exact isSuffixOf_append_self _ _
  · intro i c0 r0 hrow hi
    rw [hsplit, renderRowList_getD _ _ 0 i hi, Nat.zero_add, hrow]
    rw [show renderRow ⟨img.pix, mode, light, fg, term⟩ i (c0 :: r0) =
      (if cellStr ⟨img.pix, mode, light, fg, term⟩ 0 i ≠ [] then
        cellStr ⟨img.pix, mode, light, fg, term⟩ 0 i else []) ++
        c0 :: emitFrom ⟨img.pix, mode, light, fg, term⟩ i r0 1
          (cellStr ⟨img.pix, mode, light, fg, term⟩ 0 i) from rfl]
    rw [if_pos (by exact toAnsi_ne_nil fg _)]
    rw [List.append_assoc, ← List.append_assoc boldOn.data, ← List.append_assoc]
    rw [List.append_assoc (boldOn.data ++ cellStr ⟨img.pix, mode, light, fg, term⟩ 0 i)]
    exact isPrefixOf_append_self _ _

/-- Witness for C8, projected at the end-to-end scenario: the final row
carries the trailing unbold + reset. -/
theorem recolor_row_escape_hygiene_witness :
    (unboldSeq.data ++ styleReset.data).isSuffixOf
      ((splitNl ("\x1b[1m\x1b[38;2;255;0;0mAA\x1b[0m\n\x1b[1m\x1b[38;2;0;0;255mAA\x1b[22m\x1b[0m"
        : String).data).getLastD []) = true :=
  (recolor_row_escape_hygiene "${c1}AA\nAA" ["pride.png"] (fun _ => flagTopRedBotBlue) "pride"
    (1 / 2) none true 0 "dark"
    (resizeNearest 2 2 (rotateExpand 0 flagTopRedBotBlue))
    "\x1b[1m\x1b[38;2;255;0;0mAA\x1b[0m\n\x1b[1m\x1b[38;2;0;0;255mAA\x1b[22m\x1b[0m"
    (by decide) (by decide) (by decide) rfl rfl).2.2.1

/-- The trailing escapes of a row contain no switch pattern. -/
lemma countPat_row_tail (fg : Bool) :
    countPat (switchPat fg) styleReset.data = 0 ∧
    countPat (switchPat fg) (unboldSeq.data ++ styleReset.data) = 0 := by
  rcases fg <;> exact ⟨by decide, by decide⟩

lemma mem_cellStrsFrom_ne_nil (ctx : RenderCtx) (y : ℕ) (cells : List Char) (x : ℕ) :
    ∀ cs ∈ cellStrsFrom ctx y cells x, cs ≠ ([] : List Char) := by
  intro cs hcs
  rw [cellStrsFrom_map] at hcs
  rcases List.mem_map.mp hcs with ⟨j, _, rfl⟩
  exact toAnsi_ne_nil ctx.fg _

/-- C2 counterexample. With three cells colored red, blue, red the row has
`k = 2` distinct transformed colors but three color-switch escapes, so "at
most `k` switches per row" fails (runs, not distinct values, bound the
switch count). -/
theorem recolor_row_switches_exceed_distinct_colors :
    recolorAscii "AAA" ["rbr.png"] (fun _ => flagRBR) "rbr" (1 / 2) none true 0 "dark" =
      .ok "\x1b[1m\x1b[38;2;255;0;0mA\x1b[38;2;0;0;255mA\x1b[38;2;255;0;0mA\x1b[22m\x1b[0m" ∧
    countPat (switchPat true)
      ((splitNl ("\x1b[1m\x1b[38;2;255;0;0mA\x1b[38;2;0;0;255mA\x1b[38;2;255;0;0mA\x1b[22m\x1b[0m"
        : String).data).getD 0 []) = 3 ∧
    ((rowTransformed ⟨(resizeNearest 3 1 (rotateExpand 0 flagRBR)).pix, none, 1 / 2, true,
      "dark"⟩ 3 0).dedup).length = 2 ∧
    ¬ (3 ≤ 2) := ⟨rfl, by decide, by decide, by decide⟩

/-- C2 amended. Escape minimality per run: a color switch is emitted only
when the cell's color string differs from the previous cell's, so every
output row contains at most one switch escape per maximal run of equal
consecutive transformed colors — the switch count is bounded by the number
of maximal runs (though it can exceed the number of distinct colors). -/
theorem recolor_row_switch_count_le_runs (asc : String) (files : List String)
    (srcImgs : String → Img) (flag : String) (light : ℚ) (mode : Option String) (fg : Bool)
    (rot : ℤ) (term : String) (img : Img) (out : String)
    (hesc : '\x1b' ∉ asc.data)
    (hmode : mode ∈ recognizedModes)
    (hfix : stripColors (stripColors (fillStarting asc.data)) =
      stripColors (fillStarting asc.data))
    (himg : getFlag files srcImgs flag
      (maxList ((splitNl (stripColors (fillStarting asc.data))).map List.length))
      (splitNl (stripColors (fillStarting asc.data))).length rot = .ok img)
    (hout : recolorAscii asc files srcImgs flag light mode fg rot term = .ok out) :
    ∀ i : ℕ, countPat (switchPat fg) ((splitNl out.data).getD i []) ≤
      runsCount (rowTransformed ⟨img.pix, mode, light, fg, term⟩
        (maxList ((splitNl (stripColors (fillStarting asc.data))).map List.length)) i) := by
  have hrender := recolorAscii_render asc files srcImgs flag light mode fg rot term img
    hmode hfix himg
  have hdata : out.data = joinNl (renderRowList ⟨img.pix, mode, light, fg, term⟩
      (splitNl (normalizeAscii (stripColors (fillStarting asc.data)))) 0) := by
    have h := hout.symm.trans hrender
    simp only [Except.ok.injEq] at h
    rw [h]
  have hgood := rows_good (stripColors (fillStarting asc.data)) hfix
  have hsplit : splitNl out.data = renderRowList ⟨img.pix, mode, light, fg, term⟩
      (splitNl (normalizeAscii (stripColors (fillStarting asc.data)))) 0 := by
    rw [hdata]
    exact splitNl_joinNl _
      (renderRowList_ne_nil _ _ 0 (splitNl_ne_nil _))
      (renderRowList_no_nl _ _ 0 (fun r hr => (hgood r hr).2))
  intro i
  by_cases hi : i < (splitNl (normalizeAscii (stripColors (fillStarting asc.data)))).length
  · rw [hsplit, renderRowList_getD _ _ 0 i hi, Nat.zero_add]
    have hrowmem : (splitNl (normalizeAscii (stripColors (fillStarting asc.data)))).getD i []
        ∈ splitNl (normalizeAscii (stripColors (fillStarting asc.data))) := by
      rw [List.getD_eq_getElem _ _ hi]
      exact List.getElem_mem _
    have hlen := (hgood _ hrowmem).1
    have hescrow : ∀ c ∈ (splitNl (normalizeAscii (stripColors (fillStarting asc.data)))).getD
        i [], c ≠ '\x1b' := pipeline_esc_free asc hesc _ hrowmem
    rw [List.append_assoc,
      countPat_boldOn fg,
      show renderRow ⟨img.pix, mode, light, fg, term⟩ i
        ((splitNl (normalizeAscii (stripColors (fillStarting asc.data)))).getD i []) =
        emitFrom ⟨img.pix, mode, light, fg, term⟩ i
          ((splitNl (normalizeAscii (stripColors (fillStarting asc.data)))).getD i []) 0 []
        from rfl,
      countPat_emitFrom ⟨img.pix, mode, light, fg, term⟩ i _ 0 [] _ hescrow]
    have htail : countPat (switchPat fg)
        (if i + 1 = (splitNl (normalizeAscii (stripColors (fillStarting asc.data)))).length
          then unboldSeq.data ++ styleReset.data else styleReset.data) = 0 := by
      split
      · exact (countPat_row_tail fg).2
      · exact (countPat_row_tail fg).1
    rw [htail, Nat.add_zero]
    rw [switchCount_eq_runsCount _ _ (mem_cellStrsFrom_ne_nil _ _ _ 0),
      cellStrsFrom_zero, hlen]
    exact runsCount_map_le _ _
  · rw [hsplit, List.getD_eq_default]
    · simp [countPat]
    · rw [renderRowList_length]
      omega

/-- Witness for C2 amended, at the red/blue/red row. -/
theorem recolor_row_switch_count_le_runs_witness :
    countPat (switchPat true)
      ((splitNl ("\x1b[1m\x1b[38;2;255;0;0mA\x1b[38;2;0;0;255mA\x1b[38;2;255;0;0mA\x1b[22m\x1b[0m"
        : String).data).getD 0 []) ≤
    runsCount (rowTransformed ⟨(resizeNearest 3 1 (rotateExpand 0 flagRBR)).pix, none, 1 / 2,
      true, "dark"⟩
      (maxList ((splitNl (stripColors (fillStarting ("AAA" : String).data))).map List.length)) 0) :=
  recolor_row_switch_count_le_runs "AAA" ["rbr.png"] (fun _ => flagRBR) "rbr" (1 / 2) none true
    0 "dark" (resizeNearest 3 1 (rotateExpand 0 flagRBR))
    "\x1b[1m\x1b[38;2;255;0;0mA\x1b[38;2;0;0;255mA\x1b[38;2;255;0;0mA\x1b[22m\x1b[0m"
    (by decide) (by decide) (by decide) rfl rfl 0

/-! ## HSL lightness round-trip (for the lightness-policy claim) -/

lemma fract_shift_up (h : ℚ) :
    Int.fract (h + 1 / 3) =
      if Int.fract h < 2 / 3 then Int.fract h + 1 / 3 else Int.fract h - 2 / 3 := by
  have hu0 : 0 ≤ Int.fract h := Int.fract_nonneg h
  have hu1 : Int.fract h < 1 := Int.fract_lt_one h
  have hdec : h + 1 / 3 = (⌊h⌋ : ℚ) + (Int.fract h + 1 / 3) := by
    rw [Int.fract]
    ring
  rw [hdec, Int.fract_int_add]
  split
  · rename_i hc
    exact Int.fract_eq_self.mpr ⟨by linarith, by linarith⟩
  · rename_i hc
    push_neg at hc
    have h2 : Int.fract h + 1 / 3 = ((1 : ℤ) : ℚ) + (Int.fract h - 2 / 3) := by
      push_cast
      ring
    rw [h2, Int.fract_int_add]
    exact Int.fract_eq_self.mpr ⟨by linarith, by linarith⟩

lemma fract_shift_down (h : ℚ) :
    Int.fract (h - 1 / 3) =
      if Int.fract h < 1 / 3 then Int.fract h + 2 / 3 else Int.fract h - 1 / 3 := by
  have hu0 : 0 ≤ Int.fract h := Int.fract_nonneg h
  have hu1 : Int.fract h < 1 := Int.fract_lt_one h
  have hdec : h - 1 / 3 = (⌊h⌋ : ℚ) + (Int.fract h - 1 / 3) := by
    rw [Int.fract]
    ring
  rw [hdec, Int.fract_int_add]
  split
  · rename_i hc
    have h2 : Int.fract h - 1 / 3 = ((-1 : ℤ) : ℚ) + (Int.fract h + 2 / 3) := by
      push_cast
      ring
    rw [h2, Int.fract_int_add]
    exact Int.fract_eq_self.mpr ⟨by linarith, by linarith⟩
  · rename_i hc
    push_neg at hc
    exact Int.fract_eq_self.mpr ⟨by linarith, by linarith⟩

lemma hlsV_seg1 (m1 m2 hue : ℚ) (h : Int.fract hue < 1 / 6) :
    hlsV m1 m2 hue = m1 + (m2 - m1) * Int.fract hue * 6 := by
  simp only [hlsV]
  rw [if_pos h]

lemma hlsV_seg2 (m1 m2 hue : ℚ) (h1 : ¬ Int.fract hue < 1 / 6) (h2 : Int.fract hue < 1 / 2) :
    hlsV m1 m2 hue = m2 := by
  simp only [hlsV]
  rw [if_neg h1, if_pos h2]

lemma hlsV_seg3 (m1 m2 hue : ℚ) (h1 : ¬ Int.fract hue < 1 / 2) (h2 : Int.fract hue < 2 / 3) :
    hlsV m1 m2 hue = m1 + (m2 - m1) * (2 / 3 - Int.fract hue) * 6 := by
  have h6 : ¬ Int.fract hue < 1 / 6 := by
    push_neg at h1 ⊢
    linarith
  simp only [hlsV]
  rw [if_neg h6, if_neg h1, if_pos h2]

lemma hlsV_seg4 (m1 m2 hue : ℚ) (h1 : ¬ Int.fract hue < 2 / 3) :
    hlsV m1 m2 hue = m1 := by
  have h6 : ¬ Int.fract hue < 1 / 6 := by
    push_neg at h1 ⊢
    linarith
  have h2 : ¬ Int.fract hue < 1 / 2 := by
    push_neg at h1 ⊢
    linarith
  simp only [hlsV]
  rw [if_neg h6, if_neg h2, if_neg h1]

lemma max3_eq (a b c hi : ℚ) (ha : a ≤ hi) (hb : b ≤ hi) (hc : c ≤ hi)
    (hmem : a = hi ∨ b = hi ∨ c = hi) : max a (max b c) = hi := by
  apply le_antisymm
  · exact max_le ha (max_le hb hc)
  · rcases hmem with rfl | rfl | rfl
    · exact le_max_left _ _
    · exact le_trans (le_max_left _ _) (le_max_right _ _)
    · exact le_trans (le_max_right _ _) (le_max_right _ _)

lemma min3_eq (a b c lo : ℚ) (ha : lo ≤ a) (hb : lo ≤ b) (hc : lo ≤ c)
    (hmem : a = lo ∨ b = lo ∨ c = lo) : min a (min b c) = lo := by
  apply le_antisymm
  · rcases hmem with rfl | rfl | rfl
    · exact min_le_left _ _
    · exact le_trans (min_le_right _ _) (min_le_left _ _)
    · exact le_trans (min_le_right _ _) (min_le_right _ _)
  · exact le_min ha (le_min hb hc)

/-- Lightness of a triple whose extremes are `lo` and `hi`. -/
lemma lightness_triple (a b c lo hi : ℚ)
    (ha : lo ≤ a ∧ a ≤ hi) (hb : lo ≤ b ∧ b ≤ hi) (hc : lo ≤ c ∧ c ≤ hi)
    (hhi : a = hi ∨ b = hi ∨ c = hi) (hlo : a = lo ∨ b = lo ∨ c = lo) :
    lightnessOf (a, b, c) = (lo + hi) / 2 := by
  rw [lightnessOf]
  simp only
  rw [min3_eq a b c lo ha.1 hb.1 hc.1 hlo, max3_eq a b c hi ha.2 hb.2 hc.2 hhi]

set_option maxHeartbeats 1000000 in
/-- Converting HSL values back to RGB preserves the lightness component
exactly (for in-range lightness and saturation, any hue). -/
lemma lightness_hlsToRgb (h l s : ℚ) (hl0 : 0 ≤ l) (hl1 : l ≤ 1) (hs0 : 0 ≤ s) (hs1 : s ≤ 1) :
    lightnessOf (hlsToRgb h l s) = l := by
  simp only [hlsToRgb]
  by_cases hs : s = 0
  · rw [if_pos hs, lightnessOf]
    simp only [min_self, max_self]
    ring
  · rw [if_neg hs]
    have hs' : 0 < s := lt_of_le_of_ne hs0 (Ne.symm hs)
    set m2 := if l ≤ 1 / 2 then l * (1 + s) else l + s - l * s with hm2def
    set m1 := 2 * l - m2 with hm1def
    have hdpos : 0 ≤ m2 - m1 := by
      rw [hm1def, hm2def]
      split_ifs with hc <;> nlinarith
    have hsum : (m1 + m2) / 2 = l := by
      rw [hm1def]
      ring
    set u := Int.fract h with hudef
    have hu0 : 0 ≤ u := Int.fract_nonneg h
    have hu1 : u < 1 := Int.fract_lt_one h
    have hup := fract_shift_up h
    have hdown := fract_shift_down h
    rw [← hudef] at hup hdown
    rcases lt_or_ge u (1 / 6) with s1 | hge1
    · have hfr : Int.fract (h + 1 / 3) = u + 1 / 3 := by
        rw [hup, if_pos (by linarith)]
      have hfb : Int.fract (h - 1 / 3) = u + 2 / 3 := by
        rw [hdown, if_pos (by linarith)]
      rw [hlsV_seg2 m1 m2 (h + 1 / 3) (by rw [hfr]; push_neg; linarith) (by rw [hfr]; linarith),
        hlsV_seg1 m1 m2 h (by rw [← hudef]; exact s1),
        hlsV_seg4 m1 m2 (h - 1 / 3) (by rw [hfb]; push_neg; linarith),
        ← hudef]
      rw [lightness_triple m2 (m1 + (m2 - m1) * u * 6) m1 m1 m2
        ⟨by linarith, le_refl m2⟩
        ⟨by nlinarith, by nlinarith⟩
        ⟨le_refl m1, by linarith⟩
        (Or.inl rfl) (Or.inr (Or.inr rfl))]
      exact hsum
    rcases lt_or_ge u (1 / 3) with s2 | hge2
    · have hfr : Int.fract (h + 1 / 3) = u + 1 / 3 := by
        rw [hup, if_pos (by linarith)]
      have hfb : Int.fract (h - 1 / 3) = u + 2 / 3 := by
        rw [hdown, if_pos (by linarith)]
      rw [hlsV_seg3 m1 m2 (h + 1 / 3) (by rw [hfr]; push_neg; linarith) (by rw [hfr]; linarith),
        hlsV_seg2 m1 m2 h (by rw [← hudef]; push_neg; linarith) (by rw [← hudef]; linarith),
        hlsV_seg4 m1 m2 (h - 1 / 3) (by rw [hfb]; push_neg; linarith),
        hfr]
      rw [lightness_triple (m1 + (m2 - m1) * (2 / 3 - (u + 1 / 3)) * 6) m2 m1 m1 m2
        ⟨by nlinarith, by nlinarith⟩
        ⟨by linarith, le_refl m2⟩
        ⟨le_refl m1, by linarith⟩
        (Or.inr (Or.inl rfl)) (Or.inr (Or.inr rfl))]
      exact hsum
    rcases lt_or_ge u (1 / 2) with s3 | hge3
    · have hfr : Int.fract (h + 1 / 3) = u + 1 / 3 := by
        rw [hup, if_pos (by linarith)]
      have hfb : Int.fract (h - 1 / 3) = u - 1 / 3 := by
        rw [hdown, if_neg (by push_neg; linarith)]
      rw [hlsV_seg4 m1 m2 (h + 1 / 3) (by rw [hfr]; push_neg; linarith),
        hlsV_seg2 m1 m2 h (by rw [← hudef]; push_neg; linarith) (by rw [← hudef]; linarith),
        hlsV_seg1 m1 m2 (h - 1 / 3) (by rw [hfb]; linarith),
        hfb]
      rw [lightness_triple m1 m2 (m1 + (m2 - m1) * (u - 1 / 3) * 6) m1 m2
        ⟨le_refl m1, by linarith⟩
        ⟨by linarith, le_refl m2⟩
        ⟨by nlinarith, by nlinarith⟩
        (Or.inr (Or.inl rfl)) (Or.inl rfl)]
      exact hsum
    rcases lt_or_ge u (2 / 3) with s4 | hge4
    · have hfr : Int.fract (h + 1 / 3) = u + 1 / 3 := by
        rw [hup, if_pos (by linarith)]
      have hfb : Int.fract (h - 1 / 3) = u - 1 / 3 := by
        rw [hdown, if_neg (by push_neg; linarith)]
      rw [hlsV_seg4 m1 m2 (h + 1 / 3) (by rw [hfr]; push_neg; linarith),
        hlsV_seg3 m1 m2 h (by rw [← hudef]; push_neg; linarith) (by rw [← hudef]; linarith),
        hlsV_seg2 m1 m2 (h - 1 / 3) (by rw [hfb]; push_neg; linarith) (by rw [hfb]; linarith),
        ← hudef]
      rw [lightness_triple m1 (m1 + (m2 - m1) * (2 / 3 - u) * 6) m2 m1 m2
        ⟨le_refl m1, by linarith⟩
        ⟨by nlinarith, by nlinarith⟩
        ⟨by linarith, le_refl m2⟩
        (Or.inr (Or.inr rfl)) (Or.inl rfl)]
      exact hsum
    rcases lt_or_ge u (5 / 6) with s5 | hge5
    · have hfr : Int.fract (h + 1 / 3) = u - 2 / 3 := by
        rw [hup, if_neg (by push_neg; linarith)]
      have hfb : Int.fract (h - 1 / 3) = u - 1 / 3 := by
        rw [hdown, if_neg (by push_neg; linarith)]
      rw [hlsV_seg1 m1 m2 (h + 1 / 3) (by rw [hfr]; linarith),
        hlsV_seg4 m1 m2 h (by rw [← hudef]; push_neg; linarith),
        hlsV_seg2 m1 m2 (h - 1 / 3) (by rw [hfb]; push_neg; linarith) (by rw [hfb]; linarith),
        hfr]
      rw [lightness_triple (m1 + (m2 - m1) * (u - 2 / 3) * 6) m1 m2 m1 m2
        ⟨by nlinarith, by nlinarith⟩
        ⟨le_refl m1, by linarith⟩
        ⟨by linarith, le_refl m2⟩
        (Or.inr (Or.inr rfl)) (Or.inr (Or.inl rfl))]
      exact hsum
    · have hfr : Int.fract (h + 1 / 3) = u - 2 / 3 := by
        rw [hup, if_neg (by push_neg; linarith)]
      have hfb : Int.fract (h - 1 / 3) = u - 1 / 3 := by
        rw [hdown, if_neg (by push_neg; linarith)]
      rw [hlsV_seg2 m1 m2 (h + 1 / 3) (by rw [hfr]; push_neg; linarith) (by rw [hfr]; linarith),
        hlsV_seg4 m1 m2 h (by rw [← hudef]; push_neg; linarith),
        hlsV_seg3 m1 m2 (h - 1 / 3) (by rw [hfb]; push_neg; linarith) (by rw [hfb]; linarith),
        hfb]
      rw [lightness_triple m2 m1 (m1 + (m2 - m1) * (2 / 3 - (u - 1 / 3)) * 6) m1 m2
        ⟨by linarith, le_refl m2⟩
        ⟨le_refl m1, by linarith⟩
        ⟨by nlinarith, by nlinarith⟩
        (Or.inl rfl) (Or.inr (Or.inl rfl))]
      exact hsum

lemma rgbToHls_l (v : ℚ × ℚ × ℚ) : (rgbToHls v).2.1 = lightnessOf v := by
  simp only [rgbToHls, lightnessOf]
  split_ifs <;> rfl

lemma rgbToHls_s_bounds (v : ℚ × ℚ × ℚ) (hv : validQ v) :
    0 ≤ (rgbToHls v).2.2 ∧ (rgbToHls v).2.2 ≤ 1 := by
  obtain ⟨h1, h2, h3, h4, h5, h6⟩ := hv
  simp only [rgbToHls]
  set maxc := max v.1 (max v.2.1 v.2.2) with hmax
  set minc := min v.1 (min v.2.1 v.2.2) with hmin
  have hminmax : minc ≤ maxc :=
    le_trans (min_le_left _ _) (le_max_left _ _)
  have hmin0 : 0 ≤ minc := le_min h1 (le_min h3 h5)
  have hmax1 : maxc ≤ 1 := max_le h2 (max_le h4 h6)
  by_cases heq : minc = maxc
  · rw [if_pos heq]
    exact ⟨le_refl 0, zero_le_one⟩
  · rw [if_neg heq]
    have hlt : minc < maxc := lt_of_le_of_ne hminmax heq
    by_cases hl : (minc + maxc) / 2 ≤ 1 / 2
    · rw [if_pos hl]
      have hden : 0 < maxc + minc := by linarith
      constructor
      · exact div_nonneg (by linarith) (le_of_lt hden)
      · rw [div_le_one hden]
        linarith
    · rw [if_neg hl]
      push_neg at hl
      have hm1 : minc < 1 := lt_of_lt_of_le hlt hmax1
      have hden : 0 < 2 - maxc - minc := by linarith
      constructor
      · exact div_nonneg (by linarith) (le_of_lt hden)
      · rw [div_le_one hden]
        linarith

/-- C7. The lightness-policy dispatch of `recolor_ascii`: the `None` mode
passes the sampled color through unchanged, `set_raw` applies
`set_light(light, None, None)` — whose HSL core sets the lightness exactly
to the target — `scale` applies `lighten` — whose HSL core multiplies the
lightness, clamped to `[0,1]` — a `NotImplementedError` is raised exactly
for unrecognized mode tags, and with a recognized mode the error branch is
unreachable (the call either succeeds or fails earlier with the
flag-lookup error). -/
theorem lightness_dispatch :
    (∀ (light : ℚ) (term : String) (c : RGB), transformPixel none light term c = .ok c) ∧
    (∀ (light : ℚ) (term : String) (c : RGB),
      transformPixel (some "set_raw") light term c = .ok (c.set_light light none none)) ∧
    (∀ (light : ℚ) (term : String) (c : RGB),
      transformPixel (some "scale") light term c = .ok (c.lighten light)) ∧
    (∀ (v : ℚ × ℚ × ℚ) (t : ℚ), validQ v → 0 ≤ t → t ≤ 1 →
      lightnessOf (setLightQ v t none none) = t) ∧
    (∀ (v : ℚ × ℚ × ℚ) (f : ℚ), validQ v →
      lightnessOf (lightenQ v f) = min 1 (max 0 (lightnessOf v * f))) ∧
    (∀ (mode : Option String) (light : ℚ) (term : String) (c : RGB),
      (∃ e, transformPixel mode light term c = .error e) ↔ mode ∉ recognizedModes) ∧
    (∀ (asc : String) (files : List String) (srcImgs : String → Img) (flag : String)
      (light : ℚ) (mode : Option String) (fg : Bool) (rot : ℤ) (term : String),
      mode ∈ recognizedModes →
      (∃ r, recolorAscii asc files srcImgs flag light mode fg rot term = .ok r) ∨
        recolorAscii asc files srcImgs flag light mode fg rot term =
          .error (lowerStr flag ++ " flag does not exist")) := by
  refine ⟨fun _ _ _ => rfl, fun _ _ _ => rfl, fun _ _ _ => rfl, ?_, ?_, ?_, ?_⟩
  · intro v t hv ht0 ht1
    have hsb := rgbToHls_s_bounds v hv
    have hred : setLightQ v t none none = hlsToRgb (rgbToHls v).1 t (rgbToHls v).2.2 := by
      simp [setLightQ]
    rw [hred]
    exact lightness_hlsToRgb _ _ _ ht0 ht1 hsb.1 hsb.2
  · intro v f hv
    have hsb := rgbToHls_s_bounds v hv
    have hred : lightenQ v f =
        hlsToRgb (rgbToHls v).1 (min 1 (max 0 ((rgbToHls v).2.1 * f))) (rgbToHls v).2.2 := by
      simp [lightenQ]
    rw [hred, rgbToHls_l]
    exact lightness_hlsToRgb _ _ _
      (le_min zero_le_one (le_max_left 0 _))
      (min_le_left 1 _) hsb.1 hsb.2
  · intro mode light term c
    rcases mode with _ | m
    · simp [transformPixel, recognizedModes]
    · by_cases h1 : m = "set_dl"
      · subst h1
        constructor
        · intro he
          rcases he with ⟨e, he⟩
          rw [transformPixel] at he
          split_ifs at he <;> simp at he
        · intro hmem
          exact absurd (by simp [recognizedModes]) hmem
      by_cases h2 : m = "set_raw"
      · subst h2
        constructor
        · intro he
          rcases he with ⟨e, he⟩
          simp [transformPixel] at he
        · intro hmem
          exact absurd (by simp [recognizedModes]) hmem
      by_cases h3 : m = "scale"
      · subst h3
        constructor
        · intro he
          rcases he with ⟨e, he⟩
          simp [transformPixel] at he
        · intro hmem
          exact absurd (by simp [recognizedModes]) hmem
      · have herr : transformPixel (some m) light term c = .error notImplMsg := by
          rw [transformPixel.eq_def]
          split
          · rename_i heq
            injection heq with heq1
            exact absurd heq1 h1
          · rename_i heq
            injection heq with heq1
            exact absurd heq1 h2
          · rename_i heq
            injection heq with heq1
            exact absurd heq1 h3
          · rename_i heq
            injection heq
          · rfl
        constructor
        · intro _
          simp [recognizedModes, h1, h2, h3]
        · intro _
          exact ⟨notImplMsg, herr⟩
  · intro asc files srcImgs flag light mode fg rot term hmode
    rcases hidx : (files.map stemOf).indexOf? (lowerStr flag) with _ | i
    · right
      simp only [recolorAscii, getFlag]
      rw [hidx]
      rfl
    · left
      simp only [recolorAscii, getFlag]
      rw [hidx, except_bind_ok,
        recolorLoop_ok _ mode light fg term _ hmode, except_bind_ok]
      exact ⟨_, rfl⟩

/-- Witness for C7: the pass-through mode, the exact-lightness property at
pure red, and the error criterion at a bogus mode tag. -/
theorem lightness_dispatch_witness :
    transformPixel none (1 / 2) "dark" ⟨10, 20, 30⟩ = .ok ⟨10, 20, 30⟩ ∧
    lightnessOf (setLightQ (1, 0, 0) (1 / 2) none none) = 1 / 2 ∧
    ((∃ e, transformPixel (some "bogus") (1 / 2) "dark" ⟨10, 20, 30⟩ = .error e) ↔
      some "bogus" ∉ recognizedModes) :=
  ⟨lightness_dispatch.1 (1 / 2) "dark" ⟨10, 20, 30⟩,
   lightness_dispatch.2.2.2.1 (1, 0, 0) (1 / 2) (by norm_num [validQ]) (by norm_num)
     (by norm_num),
   lightness_dispatch.2.2.2.2.2.1 (some "bogus") (1 / 2) "dark" ⟨10, 20, 30⟩⟩



end Hyfetch
